import Mathlib

/-!
Verification of the rule-engine PostgreSQL extension.

Rust strings are modelled as `List Char` (`Str`); positions are character
positions (identical to the source's byte positions on ASCII inputs, and
order-isomorphic in general).  JSON numbers are modelled as rationals: both
serde integer and finite-float payloads denote rationals, and every concrete
computation checked here stays exact in binary64 as well.  Fallible Rust code
returns `Except`/`Option`; a Rust panic is modelled as `none` (or a dedicated
marker where a claim is about the panic itself).
-/

abbrev Str := List Char

/-- Decidable equality for `Except`, so that concrete model runs can be
checked by `decide`. -/
instance {ε α : Type _} [DecidableEq ε] [DecidableEq α] : DecidableEq (Except ε α) :=
  fun x y =>
    match x, y with
    | .ok a, .ok b =>
      if h : a = b then .isTrue (by rw [h])
      else .isFalse (by intro hh; cases hh; exact h rfl)
    | .error a, .error b =>
      if h : a = b then .isTrue (by rw [h])
      else .isFalse (by intro hh; cases hh; exact h rfl)
    | .ok _, .error _ => .isFalse (by intro hh; cases hh)
    | .error _, .ok _ => .isFalse (by intro hh; cases hh)

/-- Abbreviation turning a Lean string literal into the `List Char` model. -/
def sd (s : String) : Str := s.data

/-- Model of Rust `str::split(c)` restricted to a one-character pattern:
splits on every occurrence of `c`, keeping empty segments, and always
returns at least one segment. -/
def splitOnCh (c : Char) : Str → List Str
  | [] => [[]]
  | a :: rest =>
    if a = c then [] :: splitOnCh c rest
    else
      match splitOnCh c rest with
      | s :: ss => (a :: s) :: ss
      | [] => [[a]]

/-- Right inverse of `splitOnCh`: interleaves the separator between segments
(model of the `format!("{}.{}", p, k)` key-building convention). -/
def joinCh (c : Char) : List Str → Str
  | [] => []
  | [s] => s
  | s :: rest => s ++ c :: joinCh c rest

/-- `splitOnCh '.'`, the dotted-path splitter used by `insert_nested_value`. -/
def splitOnDot (s : Str) : List Str := splitOnCh '.' s

/-- `joinCh '.'`, the dotted-path join. -/
def joinDot (ps : List Str) : Str := joinCh '.' ps

/-- A string free of the separator character. -/
def chFree (c : Char) (s : Str) : Bool := s.all (fun a => a ≠ c)

/-- A dot-free string: one path component. -/
def noDot (s : Str) : Bool := chFree '.' s

/-!
Exact rational arithmetic, written over `mkRat` so that every operation
reduces inside the kernel (the `Rat` field operations do not).  Each
wrapper computes the same rational as the corresponding field operation;
in the model they stand for the IEEE-754 double operations of the source
at the (integer-valued or exactly-representable) inputs the claims use.
-/

/-- Kernel-reducible rational multiplication. -/
def qmul (a b : ℚ) : ℚ := mkRat (a.num * b.num) (a.den * b.den)

/-- Kernel-reducible rational addition. -/
def qadd (a b : ℚ) : ℚ := mkRat (a.num * b.den + b.num * a.den) (a.den * b.den)

/-- Kernel-reducible rational negation. -/
def qneg (a : ℚ) : ℚ := mkRat (-a.num) a.den

/-- Kernel-reducible rational subtraction. -/
def qsub (a b : ℚ) : ℚ := qadd a (qneg b)

/-- Kernel-reducible rational division (division by zero yields zero; all
call sites guard the zero divisor). -/
def qdivq (a b : ℚ) : ℚ :=
  if 0 ≤ b.num then mkRat (a.num * b.den) (a.den * b.num.toNat)
  else mkRat (-(a.num * b.den)) (a.den * (-b.num).toNat)

/-- Kernel-reducible strict comparison (cross multiplication; `Rat`
denominators are positive). -/
def qlt (a b : ℚ) : Bool := decide (a.num * b.den < b.num * a.den)

/-- Kernel-reducible non-strict comparison. -/
def qle (a b : ℚ) : Bool := decide (a.num * b.den ≤ b.num * a.den)

/-- Kernel-reducible absolute value. -/
def qabs (a : ℚ) : ℚ := if a.num < 0 then qneg a else a

/-- Kernel-reducible integer embedding. -/
def qofInt (n : Int) : ℚ := mkRat n 1

mutual
/-- Model of `serde_json::Value` (and of the engine's `Value` as far as it is
reachable from JSON input).  Numbers are rationals, see the header comment. -/
inductive JValue where
  | null : JValue
  | bool (b : Bool) : JValue
  | num (q : ℚ) : JValue
  | str (s : Str) : JValue
  | arr (elems : JList) : JValue
  | obj (fields : JFields) : JValue
  deriving DecidableEq

/-- Array payload of `JValue` (a specialized list, so that all recursion over
JSON trees is structural). -/
inductive JList where
  | nil : JList
  | cons (v : JValue) (rest : JList) : JList
  deriving DecidableEq

/-- Object payload of `JValue`: key/value pairs in insertion order, the model
of `serde_json::Map` with order preservation. -/
inductive JFields where
  | nil : JFields
  | cons (k : Str) (v : JValue) (rest : JFields) : JFields
  deriving DecidableEq
end

/-- `serde_json::Map::get`. -/
def fget : JFields → Str → Option JValue
  | .nil, _ => none
  | .cons k v rest, key => if k = key then some v else fget rest key

/-- `serde_json::Map::insert` with order preservation: an existing key keeps
its position and gets the new value, a fresh key is appended at the end. -/
def fset : JFields → Str → JValue → JFields
  | .nil, key, v => .cons key v .nil
  | .cons k w rest, key, v =>
    if k = key then .cons k v rest else .cons k w (fset rest key v)

/-- Key membership in an object. -/
def fhas : JFields → Str → Bool
  | .nil, _ => false
  | .cons k _ rest, key => k = key || fhas rest key

/-- Object concatenation (used only in specifications/proofs). -/
def fcat : JFields → JFields → JFields
  | .nil, g => g
  | .cons k v rest, g => .cons k v (fcat rest g)

/-! ## Facts store and the JSON bridge (`src/core/facts.rs`) -/

/-- Modelled from the spec: the engine crate's `Facts` container ("a keyed
store where keys are dotted paths and values are `Value`s", insertion order
preserved for round-trip fidelity).  The crate itself ships outside this
repository; only its use sites are under `src/`. -/
abbrev Facts := List (Str × JValue)

/-- Modelled from the spec: `Facts::add_value` — "Mutation is by assignment
at a key; insertion creates the key", keeping insertion order. -/
def addValue (facts : Facts) (key : Str) (v : JValue) : Facts :=
  match facts with
  | [] => [(key, v)]
  | (k, w) :: rest =>
    if k = key then (k, v) :: rest else (k, w) :: addValue rest key v

/-- Key prefixing of `flatten_and_add_to_facts`: `format!("{}.{}", p, key)`
under `Some p`, the bare key otherwise. -/
def newKey : Option Str → Str → Str
  | none, k => k
  | some p, k => p ++ '.' :: k

mutual
/-- `flatten_and_add_to_facts` (facts.rs:108-144): walk the JSON value,
adding leaf values under dotted keys; nested objects recurse with an
extended key, non-object top-level values are added under the given key. -/
def flattenAdd : Facts → Option Str → JValue → Facts
  | facts, pref, .obj fs => flattenAddFields facts pref fs
  | facts, some key, v => addValue facts key v
  | facts, none, _ => facts

/-- The per-field loop of `flatten_and_add_to_facts`: object values recurse,
leaf values are added under the dotted key. -/
def flattenAddFields : Facts → Option Str → JFields → Facts
  | facts, _, .nil => facts
  | facts, pref, .cons k v rest =>
    let nk := newKey pref k
    let facts1 :=
      match v with
      | .obj gs => flattenAddFields facts (some nk) gs
      | w => addValue facts nk w
    flattenAddFields facts1 pref rest
end

/-- `json_to_facts` (facts.rs:84-102) after the serde parse: rejects a
non-object root and otherwise flattens the object into a fresh `Facts`. -/
def jsonToFacts (v : JValue) : Except Str Facts :=
  match v with
  | .obj fs => .ok (flattenAdd [] none (.obj fs))
  | _ => .error (sd "Facts must be a JSON object, not an array or primitive")

/-- `insert_nested_value` (facts.rs:49-78) on the split key: a one-part key
inserts directly; otherwise intermediate parts navigate (creating empty
objects for missing keys) and the `as_object_mut().expect(..)` panic on a
non-object intermediate is modelled as `none`. -/
def setPath : JFields → List Str → JValue → Option JFields
  | _, [], _ => none
  | m, [p], v => some (fset m p v)
  | m, p :: ps :: pss, v =>
    match fget m p with
    | some (.obj o) => (setPath o (ps :: pss) v).map (fun o2 => fset m p (.obj o2))
    | some _ => none
    | none => (setPath .nil (ps :: pss) v).map (fun o2 => fset m p (.obj o2))

/-- The accumulation loop of `facts_to_json` (facts.rs:32-44): insert each
fact under its split dotted key, in store order. -/
def unflattenInto : List (Str × JValue) → JFields → Option JFields
  | [], m => some m
  | (k, v) :: rest, m =>
    match setPath m (splitOnDot k) v with
    | some m2 => unflattenInto rest m2
    | none => none

/-- `facts_to_json` (facts.rs:32-44) up to serialization: re-nest all facts
into a JSON object (`none` models the nested-path panic). -/
def factsToJson (facts : Facts) : Option JValue :=
  (unflattenInto facts .nil).map JValue.obj

/-- The claimed round trip `facts_to_json(json_to_facts(x))` on an object
root `x`. -/
def roundTrip (fs : JFields) : Option JValue :=
  match jsonToFacts (.obj fs) with
  | .ok facts => factsToJson facts
  | .error _ => none

mutual
/-- Specification-side companion of `flatten_and_add_to_facts`: the flat
list of (dotted key, leaf value) entries produced for the given optional
key prefix, in production order. -/
def flattenFields : Option Str → JFields → List (Str × JValue)
  | _, .nil => []
  | pref, .cons k v rest =>
    (match v with
     | .obj gs => flattenFields (some (newKey pref k)) gs
     | w => [(newKey pref k, w)]) ++ flattenFields pref rest
end

mutual
/-- Specification-side companion of the flattening: the (component path,
leaf value) entries of an object, before keys are joined with dots. -/
def flattenPaths : JFields → List (List Str × JValue)
  | .nil => []
  | .cons k v rest =>
    (match v with
     | .obj gs => (flattenPaths gs).map (fun pv => (k :: pv.1, pv.2))
     | w => [([k], w)]) ++ flattenPaths rest
end

/-- Folding `setPath` over already-split paths. -/
def unflattenPathsInto : List (List Str × JValue) → JFields → Option JFields
  | [], m => some m
  | (p, v) :: rest, m =>
    match setPath m p v with
    | some m2 => unflattenPathsInto rest m2
    | none => none

mutual
/-- A JSON value all of whose object layers are round-trip friendly:
object values along the spine are nonempty and recursively good.  Scalars
and arrays are leaves (arrays are not flattened). -/
def goodVal : JValue → Bool
  | .obj fs => (match fs with | .nil => false | _ => true) && goodFs fs
  | _ => true

/-- Round-trip friendly object fields: dot-free keys, no duplicate keys at
this level, and good values. -/
def goodFs : JFields → Bool
  | .nil => true
  | .cons k v rest => noDot k && !(fhas rest k) && goodVal v && goodFs rest
end

/-! ## Character classes, searching, decimal rendering -/

/-- The regex class `[A-Z]`. -/
def isUpper (c : Char) : Bool := decide ('A' ≤ c) && decide (c ≤ 'Z')

/-- ASCII decimal digit. -/
def isDigitCh (c : Char) : Bool := decide ('0' ≤ c) && decide (c ≤ '9')

/-- The regex class `[a-zA-Z0-9_]`. -/
def isWordChar (c : Char) : Bool :=
  isUpper c || (decide ('a' ≤ c) && decide (c ≤ 'z')) || isDigitCh c || decide (c = '_')

/-- ASCII lowercasing of one character; Rust `to_lowercase` agrees with this
on the ASCII identifiers produced by the call scanner. -/
def lowerChar (c : Char) : Char :=
  if isUpper c then Char.ofNat (c.toNat + 32) else c

/-- ASCII lowercasing of a string. -/
def lowerStr (s : Str) : Str := s.map lowerChar

/-- Whitespace recognized by the model of Rust `str::trim` (the ASCII subset
of Unicode `White_Space`; the sources and claims use no exotic whitespace). -/
def isWs (c : Char) : Bool := c = ' ' || c = '\t' || c = '\n' || c = '\r'

/-- Model of Rust `str::trim`. -/
def rustTrim (s : Str) : Str :=
  ((s.dropWhile isWs).reverse.dropWhile isWs).reverse

/-- Model of Rust `str::trim_matches(c)`: strip all leading and trailing
occurrences of one character. -/
def trimMatches (c : Char) (s : Str) : Str :=
  ((s.dropWhile (fun a => a = c)).reverse.dropWhile (fun a => a = c)).reverse

/-- Does `pat` occur in `hay` starting at position `i`? -/
def matchAt (hay pat : Str) (i : Nat) : Bool :=
  decide ((hay.drop i).take pat.length = pat)

/-- Model of Rust `str::find` for a string pattern: the first match
position. -/
def findSub (hay pat : Str) : Option Nat :=
  (List.range (hay.length + 1)).find? (matchAt hay pat)

/-- Model of Rust `str::rfind` for a string pattern: the last match
position. -/
def rfindSub (hay pat : Str) : Option Nat :=
  (List.range (hay.length + 1)).reverse.find? (matchAt hay pat)

/-- Little-endian decimal digits of `n` (with explicit fuel so that the
definition is structural and kernel-reducible). -/
def natDigitsAux : Nat → Nat → Str
  | 0, _ => []
  | _ + 1, 0 => []
  | fuel + 1, n => Char.ofNat (48 + n % 10) :: natDigitsAux fuel (n / 10)

/-- Decimal rendering of a natural number, as Rust `{}` formatting
produces it. -/
def natDigits (n : Nat) : Str :=
  if n = 0 then ['0'] else (natDigitsAux n n).reverse

/-- Decimal parsing of a digit string (big-endian). -/
def parseDigits (s : Str) : Nat :=
  s.foldl (fun acc c => acc * 10 + (c.toNat - 48)) 0

/-- Model of Rust `i64::from_str`: optional sign, at least one digit,
64-bit range check. -/
def parseI64 (s : Str) : Option Int :=
  let core : Int × Str :=
    match s with
    | '+' :: t => (1, t)
    | '-' :: t => (-1, t)
    | t => (1, t)
  match core with
  | (sgn, ds) =>
    if ds ≠ [] ∧ ds.all isDigitCh then
      let v : Int := sgn * (parseDigits ds : Int)
      if -(2 ^ 63) ≤ v ∧ v < 2 ^ 63 then some v else none
    else none

/-! ## Function-call preprocessor (`src/functions/preprocessing.rs`) -/

/-- One match of the call-site regex `([A-Z][a-zA-Z0-9_]*)\(([^)]+)\)`:
start position, captured name and raw argument text. -/
structure FnMatch where
  pos : Nat
  name : Str
  rawArgs : Str
  deriving DecidableEq

/-- The full matched text `Name(args)`. -/
def matchText (m : FnMatch) : Str := m.name ++ '(' :: m.rawArgs ++ [')']

/-- The `captures_iter` loop of the call-site regex: leftmost matches, one
after another, non-overlapping.  A name is a maximal `[A-Z][a-zA-Z0-9_]*`
run followed directly by `(`; the arguments are the nonempty run up to the
first `)`; on failure the scan advances one character (fuel is an upper
bound on the number of steps, one unit per character consumed). -/
def scanAux : Nat → Nat → Str → List FnMatch
  | 0, _, _ => []
  | _ + 1, _, [] => []
  | fuel + 1, i, c :: rest =>
    if isUpper c then
      let nm := c :: rest.takeWhile isWordChar
      match rest.dropWhile isWordChar with
      | '(' :: rest2 =>
        let args := rest2.takeWhile (fun a => a ≠ ')')
        match rest2.dropWhile (fun a => a ≠ ')'), args with
        | ')' :: rest4, _ :: _ =>
          ⟨i, nm, args⟩ :: scanAux fuel (i + nm.length + args.length + 2) rest4
        | _, _ => scanAux fuel (i + 1) rest
      | _ => scanAux fuel (i + 1) rest
    else scanAux fuel (i + 1) rest

/-- All call-site matches of the regex over the GRL source. -/
def scanMatches (grl : Str) : List FnMatch := scanAux (grl.length + 1) 0 grl

/-- `is_in_when_clause` (preprocessing.rs:94-113): find the FIRST occurrence
of the call text, then compare the last `when ` and `then ` occurrences in
the text before it. -/
def isInWhenClause (grl text : Str) : Bool :=
  match findSub grl text with
  | some pos =>
    let before := grl.take pos
    match rfindSub before (sd "when "), rfindSub before (sd "then ") with
    | some w, some t => decide (t < w)
    | some _, none => true
    | none, some _ => false
    | none, none => false
  | none => false

/-- `extract_context_from_args` (preprocessing.rs:77-91): the first path
component of the first (trimmed) argument when it is a dotted reference not
starting with a quote. -/
def extractContext (rawArgs : Str) : Option Str :=
  let firstArg := rustTrim (rawArgs.takeWhile (fun c => c ≠ ','))
  if noDot firstArg then none
  else if firstArg.head? = some '"' then none
  else
    match splitOnDot firstArg with
    | p :: _ :: _ => some p
    | _ => none

/-- The synthesized key for a condition-context call:
`format!("{}.{}_{}_{}", ctx, "__func", counter, name.to_lowercase())` when a
context was extracted, `format!("__func_{}_{}", counter, name)` otherwise. -/
def mkComputedField (rawArgs : Str) (ctr : Nat) (name : Str) : Str :=
  let tag := sd "__func_" ++ natDigits ctr ++ '_' :: lowerStr name
  match extractContext rawArgs with
  | some ctx => ctx ++ '.' :: tag
  | none => tag

/-- The `FunctionCall` record of preprocessing.rs. -/
structure FunctionCall where
  originalText : Str
  name : Str
  rawArgs : Str
  resultValue : Option JValue
  inWhen : Bool
  computedField : Option Str
  deriving DecidableEq

/-- The body of `parse_function_calls` (preprocessing.rs:27-70): classify
each match and synthesize computed fields, the counter advancing only on
condition-context calls. -/
def mkCalls (grl : Str) : List FnMatch → Nat → List FunctionCall
  | [], _ => []
  | m :: ms, ctr =>
    let text := matchText m
    if isInWhenClause grl text then
      ⟨text, m.name, m.rawArgs, none, true, some (mkComputedField m.rawArgs ctr m.name)⟩
        :: mkCalls grl ms (ctr + 1)
    else
      ⟨text, m.name, m.rawArgs, none, false, none⟩ :: mkCalls grl ms ctr

/-- `parse_function_calls` (preprocessing.rs:27-70). -/
def parseFunctionCalls (grl : Str) : List FunctionCall := mkCalls grl (scanMatches grl) 0

/-- External primitives the preprocessor delegates to, held abstract:
`numRender` models `serde_json::Number::to_string`; `parseF64` models
`str::parse::<f64>` followed by `Number::from_f64` (`none` = parse error,
`some none` = non-finite hence `Null`, `some (some q)` = the finite value);
`execFunction` models the `FUNCTION_REGISTRY` dispatch of
`functions/mod.rs::execute_function`. -/
structure ExtPrims where
  numRender : ℚ → Str
  parseF64 : Str → Option (Option ℚ)
  execFunction : Str → List JValue → Except Str JValue

/-- `replace` loop with explicit fuel (one unit per character consumed). -/
def replaceAllAux : Nat → Str → Str → Str → Str
  | 0, s, _, _ => s
  | _ + 1, [], _, _ => []
  | fuel + 1, c :: rest, pat, repl =>
    if pat.length ≠ 0 ∧ matchAt (c :: rest) pat 0 then
      repl ++ replaceAllAux fuel ((c :: rest).drop pat.length) pat repl
    else c :: replaceAllAux fuel rest pat repl

/-- Model of Rust `str::replace`: replace every non-overlapping occurrence,
left to right.  (For the empty pattern the model is the identity; all call
sites pass nonempty patterns.) -/
def replaceAll (s pat repl : Str) : Str := replaceAllAux (s.length + 1) s pat repl

/-- `value_to_grl_literal` (preprocessing.rs:123-132). -/
def valueToGrlLiteral (ext : ExtPrims) : JValue → Str
  | .null => sd "nil"
  | .bool true => sd "true"
  | .bool false => sd "false"
  | .num q => ext.numRender q
  | .str s => '"' :: replaceAll s ['"'] ['\\', '"'] ++ ['"']
  | .arr _ => sd "nil"
  | .obj _ => sd "nil"

/-- `transform_grl` (preprocessing.rs:137-156): sequentially replace each
condition-context call text by its synthesized key and each action-context
call text by the literal of its result. -/
def transformGrl (ext : ExtPrims) (grl : Str) (calls : List FunctionCall) : Str :=
  calls.foldl
    (fun acc c =>
      if c.inWhen then
        match c.computedField with
        | some f => replaceAll acc c.originalText f
        | none => acc
      else
        match c.resultValue with
        | some v => replaceAll acc c.originalText (valueToGrlLiteral ext v)
        | none => acc)
    grl

/-- `serde_json::Value::get` by string key (objects only). -/
def jget (v : JValue) (key : Str) : Option JValue :=
  match v with
  | .obj fs => fget fs key
  | _ => none

/-- Nested navigation `current.get(part)` over each part. -/
def walkPath : JValue → List Str → Option JValue
  | cur, [] => some cur
  | cur, p :: ps =>
    match jget cur p with
    | some nxt => walkPath nxt ps
    | none => none

/-- `resolve_field_reference` (preprocessing.rs:211-230): flat dotted key
first, then nested access part by part. -/
def resolveFieldReference (fieldRef : Str) (facts : JValue) : Option JValue :=
  match jget facts fieldRef with
  | some v => some v
  | none =>
    let parts := splitOnDot fieldRef
    if parts.length < 2 then jget facts fieldRef
    else walkPath facts parts

/-- `parse_and_resolve_args` (preprocessing.rs:168-206): split on commas,
trim, resolve as a fact reference, else parse as string/int/float/bool/nil
literal, else pass the token through as a string. -/
def parseAndResolveArgs (ext : ExtPrims) (rawArgs : Str) (facts : JValue) : List JValue :=
  (splitOnCh ',' rawArgs).map (fun seg =>
    let t := rustTrim seg
    match resolveFieldReference t facts with
    | some v => v
    | none =>
      if t.head? = some '"' ∧ t.getLast? = some '"' then
        .str (trimMatches '"' t)
      else
        match parseI64 t with
        | some n => .num (qofInt n)
        | none =>
          match ext.parseF64 t with
          | some (some q) => .num q
          | some none => .null
          | none =>
            if t = sd "true" then .bool true
            else if t = sd "false" then .bool false
            else if t = sd "nil" ∨ t = sd "null" then .null
            else .str t)

/-- `evaluate_function_call` (preprocessing.rs:159-165). -/
def evaluateFunctionCall (ext : ExtPrims) (c : FunctionCall) (facts : JValue) :
    Except Str JValue :=
  ext.execFunction c.name (parseAndResolveArgs ext c.rawArgs facts)

/-- The injection step of `preprocess_grl_with_functions`
(preprocessing.rs:252-259): for a condition-context call insert the result
under the computed field when the facts value is a JSON object
(`facts.as_object_mut()` silently skips the insertion otherwise). -/
def injectWhen (c : FunctionCall) (v : JValue) (facts : JValue) : JValue :=
  if c.inWhen then
    match c.computedField, facts with
    | some key, .obj fs => JValue.obj (fset fs key v)
    | _, _ => facts
  else facts

/-- The evaluate-and-inject loop of `preprocess_grl_with_functions`
(preprocessing.rs:246-260): evaluate each call against the current facts,
record the result, and inject condition-context results. -/
def evalLoop (ext : ExtPrims) : List FunctionCall → JValue → Except Str (List FunctionCall × JValue)
  | [], facts => .ok ([], facts)
  | c :: rest, facts =>
    match evaluateFunctionCall ext c facts with
    | .error e => .error e
    | .ok v =>
      match evalLoop ext rest (injectWhen c v facts) with
      | .ok (cs, f2) => .ok ({ c with resultValue := some v } :: cs, f2)
      | .error e => .error e

/-- `preprocess_grl_with_functions` (preprocessing.rs:236-268). -/
def preprocessGrl (ext : ExtPrims) (grl : Str) (facts : JValue) :
    Except Str (Str × JValue) :=
  let calls := parseFunctionCalls grl
  if calls.isEmpty then .ok (grl, facts)
  else
    match evalLoop ext calls facts with
    | .ok (calls2, facts2) => .ok (transformGrl ext grl calls2, facts2)
    | .error e => .error e

/-! ## Math built-ins (`src/functions/math.rs`) -/

/-- `serde_json::Value::as_f64`: defined exactly on numbers.  (Every serde
number payload is a finite double or 64-bit integer; both denote rationals
here.) -/
def asF64 : JValue → Option ℚ
  | .num q => some q
  | _ => none

/-- `abs` (math.rs:33-43).  `|q|` of a finite double is finite and exact, so
the `Number::from_f64` guard always yields a Number. -/
def absModel (args : List JValue) : Except Str JValue :=
  match args with
  | [] => .error (sd "Abs requires 1 argument: number")
  | a :: _ =>
    match asF64 a with
    | none => .error (sd "Abs: argument must be a number")
    | some q => .ok (.num (qabs q))

/-- `sqrt` (math.rs:121-135).  `sqrtImpl` stands for IEEE-754 `f64::sqrt`
restricted to finite non-negative inputs, on which it is total and finite,
so the `Number::from_f64` guard always yields a Number. -/
def sqrtModel (sqrtImpl : ℚ → ℚ) (args : List JValue) : Except Str JValue :=
  match args with
  | [] => .error (sd "Sqrt requires 1 argument: number")
  | a :: _ =>
    match asF64 a with
    | none => .error (sd "Sqrt: argument must be a number")
    | some q =>
      if qlt q 0 then .error (sd "Sqrt: cannot take square root of negative number")
      else .ok (.num (sqrtImpl q))

/-- The fragment of `FUNCTION_REGISTRY` dispatch (`functions/mod.rs:58-63`)
covering the functions embedded in this development; unknown names fail as
in the source. -/
def registryFragment (sqrtImpl : ℚ → ℚ) (name : Str) (args : List JValue) :
    Except Str JValue :=
  if name = sd "Abs" then absModel args
  else if name = sd "Sqrt" then sqrtModel sqrtImpl args
  else .error (sd "Unknown function: " ++ name)

/-! ## Substring (`src/functions/string.rs:117-142`), at byte level -/

/-- Byte-level model of the `serde_json::Value` arguments reaching the
string built-ins: a string is its UTF-8 byte sequence.  `sint` carries
integer-stored numbers, `sfloat` float-stored ones. -/
inductive SVal where
  | sstr (bytes : List Nat) : SVal
  | sint (n : Int) : SVal
  | sfloat (q : ℚ) : SVal
  | sbool (b : Bool) : SVal
  | snull : SVal
  deriving DecidableEq

/-- `Value::as_str`. -/
def svAsStr : SVal → Option (List Nat)
  | .sstr b => some b
  | _ => none

/-- `Value::as_u64`: integer-stored, non-negative values only. -/
def svAsU64 : SVal → Option Nat
  | .sint n => if 0 ≤ n then some n.toNat else none
  | _ => none

/-- Result of a string built-in: `Ok`, `Err`, or a Rust panic. -/
inductive SubRes where
  | ok (bytes : List Nat) : SubRes
  | err (msg : Str) : SubRes
  | panicked : SubRes
  deriving DecidableEq

/-- Rust `str::is_char_boundary` on the byte sequence: index 0 and the
length are boundaries, otherwise the byte must not be a UTF-8 continuation
byte, and past-the-end indices are not boundaries. -/
def isCharBdy (bytes : List Nat) (i : Nat) : Bool :=
  if i = 0 || i = bytes.length then true
  else
    match bytes.get? i with
    | some b => decide (b < 0x80) || decide (0xC0 ≤ b)
    | none => false

/-- Rust slicing `&text[a..b]`: panics unless `a ≤ b ≤ len` and both ends
are char boundaries. -/
def sliceBytes (bytes : List Nat) (a b : Nat) : SubRes :=
  if decide (a ≤ b) && decide (b ≤ bytes.length) && isCharBdy bytes a && isCharBdy bytes b
  then .ok ((bytes.drop a).take (b - a))
  else .panicked

/-- `substring` (string.rs:117-142): arity and tag checks, a byte-level
start bound check, then the byte slice `&text[start..min(start+len, len)]`
(which can panic off char boundaries). -/
def substringModel (args : List SVal) : SubRes :=
  match args with
  | a0 :: a1 :: a2 :: _ =>
    match svAsStr a0 with
    | none => .err (sd "Substring: first argument must be a string")
    | some text =>
      match svAsU64 a1 with
      | none => .err (sd "Substring: start must be a number")
      | some start =>
        match svAsU64 a2 with
        | none => .err (sd "Substring: length must be a number")
        | some len =>
          if text.length ≤ start then
            .err (sd "Start index " ++ natDigits start ++ sd " out of bounds")
          else sliceBytes text start (min (start + len) text.length)
  | _ => .err (sd "Substring requires 3 arguments: string, start, length")

/-! ## Input limits, error codes, envelopes
(`src/validation/limits.rs`, `src/validation/input.rs`, `src/error/codes.rs`,
`src/error/mod.rs`) -/

/-- An `ErrorCode` constant of error/codes.rs. -/
structure ErrorCode where
  code : Str
  defaultMessage : Str
  deriving DecidableEq

def EMPTY_FACTS : ErrorCode := ⟨sd "ERR001", sd "Facts JSON cannot be empty"⟩

def EMPTY_RULES : ErrorCode := ⟨sd "ERR002", sd "Rules GRL cannot be empty"⟩

def FACTS_TOO_LARGE : ErrorCode := ⟨sd "ERR003", sd "Facts JSON too large (max 1MB)"⟩

def RULES_TOO_LARGE : ErrorCode := ⟨sd "ERR004", sd "Rules GRL too large (max 1MB)"⟩

def INVALID_JSON : ErrorCode := ⟨sd "ERR005", sd "Invalid JSON syntax in facts"⟩

def NON_OBJECT_JSON : ErrorCode :=
  ⟨sd "ERR006", sd "Facts must be a JSON object, not an array or primitive"⟩

def FACT_ADD_FAILED : ErrorCode := ⟨sd "ERR007", sd "Failed to add fact"⟩

def INVALID_GRL : ErrorCode := ⟨sd "ERR008", sd "Invalid GRL syntax"⟩

def NO_RULES_FOUND : ErrorCode := ⟨sd "ERR009", sd "No valid rules found in GRL"⟩

def RULE_ADD_FAILED : ErrorCode := ⟨sd "ERR010", sd "Failed to add rule"⟩

def EXECUTION_FAILED : ErrorCode := ⟨sd "ERR011", sd "Rule execution failed"⟩

def SERIALIZATION_FAILED : ErrorCode := ⟨sd "ERR012", sd "Failed to serialize result"⟩

/-- `MAX_INPUT_SIZE` (limits.rs:2): 1 MB. -/
def MAX_INPUT_SIZE : Nat := 1000000

/-- `check_size_limit` (limits.rs:5-14). -/
def checkSizeLimit (input : Str) (limit : Nat) : Except Str Unit :=
  if limit < input.length then
    .error (sd "Input too large: " ++ natDigits input.length ++ sd " bytes (max "
      ++ natDigits limit ++ sd " bytes)")
  else .ok ()

/-- `check_not_empty` (limits.rs:17-22). -/
def checkNotEmpty (input : Str) (fieldName : Str) : Except Str Unit :=
  if input.isEmpty then .error (fieldName ++ sd " cannot be empty") else .ok ()

/-- `validate_facts_input` (input.rs:4-8). -/
def validateFactsInput (json : Str) : Except Str Unit :=
  match checkNotEmpty json (sd "Facts JSON") with
  | .error e => .error e
  | .ok _ => checkSizeLimit json MAX_INPUT_SIZE

/-- `validate_rules_input` (input.rs:11-15). -/
def validateRulesInput (grl : Str) : Except Str Unit :=
  match checkNotEmpty grl (sd "Rules GRL") with
  | .error e => .error e
  | .ok _ => checkSizeLimit grl MAX_INPUT_SIZE

/-- The error envelope built by `create_error_response` (error/mod.rs:52-59),
up to the wall-clock timestamp field. -/
structure ErrEnvelope where
  errorMessage : Str
  errorCode : Str
  deriving DecidableEq

/-- `create_custom_error` (error/mod.rs:62-64). -/
def createCustomError (ec : ErrorCode) (msg : Str) : ErrEnvelope := ⟨msg, ec.code⟩

/-- Return value of a boundary call: a success JSON (kept as a value, i.e.
up to serialization) or an error envelope. -/
inductive ApiOut where
  | success (v : JValue) : ApiOut
  | failure (e : ErrEnvelope) : ApiOut
  deriving DecidableEq

/-- The `error_code` of a boundary result, if it failed. -/
def errCodeOf : ApiOut → Option Str
  | .success _ => none
  | .failure e => some e.errorCode

/-! ## JSON serialization (model of `serde_json::Value::to_string`) -/

/-- Hex digit for escapes. -/
def hexDigit (n : Nat) : Char :=
  if n < 10 then Char.ofNat (48 + n) else Char.ofNat (87 + n)

/-- serde string escaping: quote, backslash, the short control escapes, and
`\u00XX` for the remaining control characters. -/
def escapeChar (c : Char) : Str :=
  if c = '"' then ['\\', '"']
  else if c = '\\' then ['\\', '\\']
  else if c = '\x08' then ['\\', 'b']
  else if c = '\x09' then ['\\', 't']
  else if c = '\x0a' then ['\\', 'n']
  else if c = '\x0c' then ['\\', 'f']
  else if c = '\x0d' then ['\\', 'r']
  else if c.toNat < 32 then
    ['\\', 'u', '0', '0', hexDigit (c.toNat / 16), hexDigit (c.toNat % 16)]
  else [c]

mutual
/-- Compact JSON rendering (`Value::to_string`); numbers via the abstract
`numRender` primitive. -/
def renderJ (ext : ExtPrims) : JValue → Str
  | .null => sd "null"
  | .bool true => sd "true"
  | .bool false => sd "false"
  | .num q => ext.numRender q
  | .str s => '"' :: s.flatMap escapeChar ++ ['"']
  | .arr es => '[' :: renderJList ext es ++ [']']
  | .obj fs => '{' :: renderJFields ext fs ++ ['}']

/-- Array elements, comma separated. -/
def renderJList (ext : ExtPrims) : JList → Str
  | .nil => []
  | .cons v .nil => renderJ ext v
  | .cons v rest => renderJ ext v ++ ',' :: renderJList ext rest

/-- Object members, comma separated. -/
def renderJFields (ext : ExtPrims) : JFields → Str
  | .nil => []
  | .cons k v .nil => '"' :: k.flatMap escapeChar ++ '"' :: ':' :: renderJ ext v
  | .cons k v rest =>
    '"' :: k.flatMap escapeChar ++ '"' :: ':' :: renderJ ext v ++ ',' :: renderJFields ext rest
end

/-! ## RETE executor bridge (`src/core/rete_executor.rs`) -/

mutual
/-- Model of the engine crate's `FactValue` (rete_executor.rs uses the
variants String, Integer, Float, Boolean, Array, Null). -/
inductive FactValue where
  | fvStr (s : Str) : FactValue
  | fvInt (n : Int) : FactValue
  | fvFloat (q : ℚ) : FactValue
  | fvBool (b : Bool) : FactValue
  | fvArr (elems : FVList) : FactValue
  | fvNull : FactValue
  deriving DecidableEq

/-- Array payload of `FactValue`. -/
inductive FVList where
  | nil : FVList
  | cons (v : FactValue) (rest : FVList) : FVList
  deriving DecidableEq
end

/-- Modelled from the spec: the engine crate's `TypedFacts` — "a typed
per-object field map", insertion-ordered; `set` assigns (upsert). -/
abbrev TypedFacts := List (Str × FactValue)

/-- `TypedFacts::set`. -/
def tfSet (tf : TypedFacts) (key : Str) (v : FactValue) : TypedFacts :=
  match tf with
  | [] => [(key, v)]
  | (k, w) :: rest =>
    if k = key then (k, v) :: rest else (k, w) :: tfSet rest key v

/-- `TypedFacts` field lookup. -/
def tfGet (tf : TypedFacts) (key : Str) : Option FactValue :=
  match tf with
  | [] => none
  | (k, w) :: rest => if k = key then some w else tfGet rest key

/-- `serde_json::Number::as_i64` on the rational model: integer values in
the 64-bit range.  (serde additionally reports `None` for float-stored
payloads that happen to be integral, e.g. parsed from `1.0`; the rational
model cannot distinguish that storage tag — all inputs used by claims are
integer-stored.) -/
def numAsI64 (q : ℚ) : Option Int :=
  if q.den = 1 ∧ -(2 ^ 63) ≤ q.num ∧ q.num < 2 ^ 63 then some q.num else none

mutual
/-- `json_to_fact_value` (rete_executor.rs:95-116) and the identical
per-field conversion of `set_typed_field` (rete_executor.rs:65-92): numbers
as `Integer` via `as_i64` else `Float`, arrays recursively, nested objects
stored as their JSON rendering. -/
def jsonToFactValue (ext : ExtPrims) : JValue → FactValue
  | .str s => .fvStr s
  | .num q =>
    match numAsI64 q with
    | some i => .fvInt i
    | none => .fvFloat q
  | .bool b => .fvBool b
  | .null => .fvNull
  | .arr es => .fvArr (jsonToFVList ext es)
  | .obj fs => .fvStr (renderJ ext (.obj fs))

/-- Array conversion of `json_to_fact_value`. -/
def jsonToFVList (ext : ExtPrims) : JList → FVList
  | .nil => .nil
  | .cons v rest => .cons (jsonToFactValue ext v) (jsonToFVList ext rest)
end

/-- The field loop of `json_to_typed_facts` (rete_executor.rs:48-52). -/
def typedFieldsOfObj (ext : ExtPrims) : JFields → TypedFacts
  | .nil => []
  | .cons k v rest => tfSet (typedFieldsOfObj ext rest) k (jsonToFactValue ext v)

/-- Order-correct variant of the field loop: fields are set first to last. -/
def typedFieldsLoop (ext : ExtPrims) (acc : TypedFacts) : JFields → TypedFacts
  | .nil => acc
  | .cons k v rest => typedFieldsLoop ext (tfSet acc k (jsonToFactValue ext v)) rest

/-- Modelled from the spec: the RETE working memory — "a set of Fact
Entries, each a (handle, fact_type, TypedFacts) triple where handle is a
process-unique monotonic identifier". -/
structure WorkMem where
  nextHandle : Nat
  entries : List (Nat × Str × TypedFacts)
  deriving DecidableEq

/-- `IncrementalEngine::insert`: allocate the next handle and append the
entry. -/
def wmInsert (wm : WorkMem) (ftype : Str) (tf : TypedFacts) : WorkMem × Nat :=
  (⟨wm.nextHandle + 1, wm.entries ++ [(wm.nextHandle, ftype, tf)]⟩, wm.nextHandle)

/-- `working_memory().get(handle)`. -/
def wmGet (wm : WorkMem) (h : Nat) : Option (Str × TypedFacts) :=
  (wm.entries.find? (fun e => e.1 = h)).map (fun e => e.2)

/-- Working-memory modification at a handle (retract-plus-reinsert semantics
collapsed to an in-place data update; the handle stays stable per the spec). -/
def wmSet (wm : WorkMem) (h : Nat) (tf : TypedFacts) : WorkMem :=
  ⟨wm.nextHandle,
   wm.entries.map (fun e => if e.1 = h then (e.1, e.2.1, tf) else e)⟩

/-- The per-fact-type loop of `json_to_typed_facts` (rete_executor.rs:36-62):
each top-level member becomes one typed fact (object members contribute
fields, non-object members yield an empty field map) inserted into working
memory; the (type, handle) pairs are collected in order. -/
def jttLoop (ext : ExtPrims) : JFields → WorkMem → List (Str × Nat) × WorkMem
  | .nil, wm => ([], wm)
  | .cons ftype fdata rest, wm =>
    let tf :=
      match fdata with
      | .obj fields => typedFieldsLoop ext [] fields
      | _ => []
    match wmInsert wm ftype tf with
    | (wm2, h) =>
      match jttLoop ext rest wm2 with
      | (hs, wm3) => ((ftype, h) :: hs, wm3)

/-- `json_to_typed_facts` (rete_executor.rs:36-62). -/
def jsonToTypedFacts (ext : ExtPrims) (v : JValue) (wm : WorkMem) :
    Except Str (List (Str × Nat) × WorkMem) :=
  match v with
  | .obj fs => .ok (jttLoop ext fs wm)
  | _ => .error (sd "Facts must be a JSON object")

mutual
/-- `fact_value_to_json` (rete_executor.rs:151-165); the `from_f64` guard
always yields a Number on the finite rational model. -/
def factValueToJson : FactValue → JValue
  | .fvStr s => .str s
  | .fvInt i => .num (qofInt i)
  | .fvFloat q => .num q
  | .fvBool b => .bool b
  | .fvArr es => .arr (fvListToJson es)
  | .fvNull => .null

/-- Array conversion of `fact_value_to_json`. -/
def fvListToJson : FVList → JList
  | .nil => .nil
  | .cons v rest => .cons (factValueToJson v) (fvListToJson rest)
end

/-- `typed_facts_to_json` (rete_executor.rs:137-148): each field in store
order into a JSON object. -/
def typedFactsToJson (tf : TypedFacts) : JValue :=
  .obj (tf.foldl (fun m kv => fset m kv.1 (factValueToJson kv.2)) .nil)

/-- `extract_facts_from_rete` (rete_executor.rs:119-134): for each inserted
(type, handle) pair still present in working memory, insert the fact's
final field map under the fact type; missing handles are skipped. -/
def extractFactsFromRete (wm : WorkMem) (handles : List (Str × Nat)) : JFields :=
  handles.foldl
    (fun result th =>
      match wmGet wm th.2 with
      | some td => fset result th.1 (typedFactsToJson td.2)
      | none => result)
    .nil

/-! ## GRL rules and RETE firing for the executed pipeline

The GRL parser (`GRLParser`/`GrlReteLoader`) and the incremental engine
(`IncrementalEngine`) live in the engine crate outside this repository; the
definitions below are modelled from the spec (§4.2 rule shape, §4.5 firing)
on the subset the claims exercise: one rule
`rule "<name>" { when <path OP literal-or-path> then <path> = <expr>; }`
with an assignment action whose expression is an operand or one binary
arithmetic operation, integers widening to floats. -/

/-- Comparison operators of §4.2. -/
inductive MCmp where
  | ceq | cne | clt | cle | cgt | cge
  deriving DecidableEq

/-- A condition or action operand: literal value or fact-path reference. -/
inductive MOperand where
  | mlit (v : FactValue) : MOperand
  | mref (path : Str) : MOperand
  deriving DecidableEq

/-- An action expression: an operand, or one binary `+ - * /`. -/
inductive MExpr where
  | mop (o : MOperand) : MExpr
  | mbin (op : Char) (a b : MOperand) : MExpr
  deriving DecidableEq

/-- A single-fact condition `path OP operand`. -/
structure MCond where
  path : Str
  cmp : MCmp
  rhs : MOperand
  deriving DecidableEq

/-- An assignment action `path = expr`. -/
structure MAction where
  path : Str
  expr : MExpr
  deriving DecidableEq

/-- Modelled from the spec: the rule IR (name, one condition, one
assignment action; salience and control flags default). -/
structure MRule where
  name : Str
  cond : MCond
  act : MAction
  deriving DecidableEq

/-- Tokenizer for the modelled GRL subset: braces and semicolons become
their own tokens, whitespace separates. -/
def grlTokens (s : Str) : List Str :=
  (splitOnCh ' '
    (s.flatMap (fun c =>
      if c = ';' || c = '{' || c = '}' then [' ', c, ' ']
      else if isWs c then [' '] else [c]))).filter (fun t => t ≠ [])

/-- Comparison-operator token. -/
def parseCmpTok (t : Str) : Option MCmp :=
  if t = sd "==" then some .ceq
  else if t = sd "!=" then some .cne
  else if t = sd "<" then some .clt
  else if t = sd "<=" then some .cle
  else if t = sd ">" then some .cgt
  else if t = sd ">=" then some .cge
  else none

/-- Arithmetic-operator token. -/
def parseArithTok (t : Str) : Option Char :=
  match t with
  | [c] => if c = '+' || c = '-' || c = '*' || c = '/' then some c else none
  | _ => none

/-- Unsigned numeric literal token: digits, or digits-dot-digits (the
decimal denotes its exact rational value, parsed to `Integer` or `Float`). -/
def parseDecPos (t : Str) : Option FactValue :=
  match splitOnCh '.' t with
  | [a] =>
    if a ≠ [] ∧ a.all isDigitCh then some (.fvInt (parseDigits a)) else none
  | [a, b] =>
    if a ≠ [] ∧ b ≠ [] ∧ a.all isDigitCh ∧ b.all isDigitCh then
      some (.fvFloat (qadd (qofInt (parseDigits a)) (mkRat (parseDigits b) (10 ^ b.length))))
    else none
  | _ => none

/-- Numeric literal token with optional leading minus. -/
def parseDecTok (t : Str) : Option FactValue :=
  match t with
  | '-' :: r =>
    (parseDecPos r).map (fun v =>
      match v with
      | .fvInt n => .fvInt (-n)
      | .fvFloat q => .fvFloat (qneg q)
      | w => w)
  | r => parseDecPos r

/-- Operand token: a numeric literal, else a fact-path reference. -/
def parseOperandTok (t : Str) : MOperand :=
  match parseDecTok t with
  | some v => .mlit v
  | none => .mref t

/-- Action-expression tokens: one operand or one binary operation. -/
def parseExprToks (ts : List Str) : Option MExpr :=
  match ts with
  | [a] => some (.mop (parseOperandTok a))
  | [a, o, b] =>
    (parseArithTok o).map (fun op => .mbin op (parseOperandTok a) (parseOperandTok b))
  | _ => none

/-- Drop one trailing `;` token of an action. -/
def dropSemi (ts : List Str) : List Str :=
  if ts.getLast? = some (sd ";") then ts.dropLast else ts

/-- Modelled from the spec: `GRLParser::parse_rules`/`GrlReteLoader` on the
subset above.  Unsupported constructs are rejected with a diagnostic. -/
def parseGrlRules (grl : Str) : Except Str (List MRule) :=
  match grlTokens grl with
  | rw :: nm :: ob :: ww :: rest =>
    if rw = sd "rule" ∧ ob = sd "\x7b" ∧ ww = sd "when" then
      let condT := rest.takeWhile (fun t => t ≠ sd "then")
      match rest.dropWhile (fun t => t ≠ sd "then") with
      | _ :: rest2 =>
        let actT := dropSemi (rest2.takeWhile (fun t => t ≠ sd "\x7d"))
        match condT, actT with
        | [p, o, r], ap :: eq :: es =>
          if eq = sd "=" then
            match parseCmpTok o, parseExprToks es with
            | some c, some e =>
              .ok [⟨trimMatches '"' nm, ⟨p, c, parseOperandTok r⟩, ⟨ap, e⟩⟩]
            | _, _ => .error (sd "unsupported rule syntax")
          else .error (sd "unsupported rule syntax")
        | _, _ => .error (sd "unsupported rule syntax")
      | [] => .error (sd "missing then clause")
    else .error (sd "unsupported rule syntax")
  | _ => .error (sd "unsupported rule syntax")

/-- Numeric widening of a `FactValue`. -/
def fvWiden : FactValue → Option ℚ
  | .fvInt n => some (qofInt n)
  | .fvFloat q => some q
  | _ => none

/-- Rational comparison under an `MCmp`. -/
def cmpQ (op : MCmp) (x y : ℚ) : Bool :=
  match op with
  | .ceq => decide (x = y)
  | .cne => decide (x ≠ y)
  | .clt => qlt x y
  | .cle => qle x y
  | .cgt => qlt y x
  | .cge => qle y x

/-- Fact-value comparison: numerically after widening, structurally for
equality of non-numbers, false for orderings of non-numbers. -/
def cmpFV (op : MCmp) (a b : FactValue) : Bool :=
  match fvWiden a, fvWiden b with
  | some x, some y => cmpQ op x y
  | _, _ =>
    match op with
    | .ceq => decide (a = b)
    | .cne => decide (a ≠ b)
    | _ => false

/-- First component of a dotted path (the fact type). -/
def pathType (p : Str) : Str :=
  match splitOnDot p with
  | t :: _ => t
  | [] => []

/-- Remainder of a dotted path (the field name). -/
def pathField (p : Str) : Str := joinDot (splitOnDot p).tail

/-- Operand evaluation against the matched fact: references resolve in the
fact's own field map when the path's first component is its type. -/
def evalOperandM (ftype : Str) (tf : TypedFacts) : MOperand → Option FactValue
  | .mlit v => some v
  | .mref p => if pathType p = ftype then tfGet tf (pathField p) else none

/-- Binary arithmetic with integer/float widening (Rust `i64` arithmetic on
two integers — exact here, no claim input overflows — and rational float
arithmetic otherwise; division by zero is undefined). -/
def arithFV (op : Char) (a b : FactValue) : Option FactValue :=
  match a, b with
  | .fvInt x, .fvInt y =>
    if op = '+' then some (.fvInt (x + y))
    else if op = '-' then some (.fvInt (x - y))
    else if op = '*' then some (.fvInt (x * y))
    else if op = '/' then (if y = 0 then none else some (.fvInt (Int.tdiv x y)))
    else none
  | _, _ =>
    match fvWiden a, fvWiden b with
    | some x, some y =>
      if op = '+' then some (.fvFloat (qadd x y))
      else if op = '-' then some (.fvFloat (qsub x y))
      else if op = '*' then some (.fvFloat (qmul x y))
      else if op = '/' then (if y = 0 then none else some (.fvFloat (qdivq x y)))
      else none
    | _, _ => none

/-- Action-expression evaluation against the matched fact. -/
def evalExprM (ftype : Str) (tf : TypedFacts) : MExpr → Option FactValue
  | .mop o => evalOperandM ftype tf o
  | .mbin op a b =>
    match evalOperandM ftype tf a, evalOperandM ftype tf b with
    | some x, some y => arithFV op x y
    | _, _ => none

/-- Does the rule's condition hold on the given fact entry? -/
def condHolds (r : MRule) (ftype : Str) (tf : TypedFacts) : Bool :=
  decide (pathType r.cond.path = ftype) &&
    match tfGet tf (pathField r.cond.path), evalOperandM ftype tf r.cond.rhs with
    | some a, some b => cmpFV r.cond.cmp a b
    | _, _ => false

/-- The next activation: first rule in load order, first matching fact in
working-memory order, that has not fired on that fact yet (refraction: one
firing per rule/handle pair, the production-system discipline implied by the
spec's terminating scenarios and determinism guarantee). -/
def findMatchM (rules : List MRule) (wm : WorkMem) (fired : List (Str × Nat)) :
    Option (MRule × Nat) :=
  rules.findSome? (fun r =>
    (wm.entries.find? (fun e =>
      condHolds r e.2.1 e.2.2 && !(fired.contains (r.name, e.1)))).map (fun e => (r, e.1)))

/-- Execute the rule's assignment action on the matched fact: evaluate the
right-hand side and set the field (modify keeps the handle stable). -/
def applyActionM (r : MRule) (h : Nat) (wm : WorkMem) : WorkMem :=
  match wmGet wm h with
  | some (ft, tf) =>
    if pathType r.act.path = ft then
      match evalExprM ft tf r.act.expr with
      | some v => wmSet wm h (tfSet tf (pathField r.act.path) v)
      | none => wm
    else wm
  | none => wm

/-- Modelled from the spec: the `fire_all` drain loop — dequeue the next
activation, fire it, repeat until the agenda is empty or the iteration cap
is reached. -/
def fireAllAux : Nat → List MRule → List (Str × Nat) → WorkMem → WorkMem
  | 0, _, _, wm => wm
  | fuel + 1, rules, fired, wm =>
    match findMatchM rules wm fired with
    | none => wm
    | some (r, h) => fireAllAux fuel rules ((r.name, h) :: fired) (applyActionM r h wm)

/-- `fire_all` with the spec's iteration cap of 10000. -/
def fireAllM (rules : List MRule) (wm : WorkMem) : WorkMem :=
  fireAllAux 10000 rules [] wm

/-- `execute_rules_rete` (rete_executor.rs:11-33): load rules, require at
least one, insert the JSON facts into working memory, fire, and extract the
surviving inserted facts. -/
def executeRulesRete (ext : ExtPrims) (facts : JValue) (grl : Str) : Except Str JValue :=
  match parseGrlRules grl with
  | .error e => .error (sd "Failed to load GRL into RETE: " ++ e)
  | .ok rules =>
    if rules.isEmpty then .error (sd "No rules loaded")
    else
      match jsonToTypedFacts ext facts ⟨0, []⟩ with
      | .error e => .error e
      | .ok (handles, wm) => .ok (.obj (extractFactsFromRete (fireAllM rules wm) handles))

/-! ## Boundary entry points (`src/api/engine.rs`, `src/api/backward.rs`) -/

/-- `run_rule_engine` (engine.rs:111-223) with debug mode disabled (the
default; the debug branch performs the same validations before diverging).
`parseJson` models `serde_json::from_str` (error carries serde's message). -/
def runRuleEngine (ext : ExtPrims) (parseJson : Str → Except Str JValue)
    (factsJson rulesGrl : Str) : ApiOut :=
  match validateFactsInput factsJson with
  | .error e => .failure (createCustomError EMPTY_FACTS e)
  | .ok _ =>
  match validateRulesInput rulesGrl with
  | .error e => .failure (createCustomError EMPTY_RULES e)
  | .ok _ =>
  match parseJson factsJson with
  | .error e => .failure (createCustomError INVALID_JSON e)
  | .ok factsValue =>
  match preprocessGrl ext rulesGrl factsValue with
  | .error e =>
    .failure (createCustomError INVALID_GRL (sd "Function preprocessing error: " ++ e))
  | .ok (transformedGrl, factsValue2) =>
  match executeRulesRete ext factsValue2 transformedGrl with
  | .error e => .failure (createCustomError EXECUTION_FAILED e)
  | .ok v => .success v

/-- `run_rule_engine_rete` (engine.rs:68-105): identical validation, parse,
preprocessing and RETE pipeline as the default path of `run_rule_engine`. -/
def runRuleEngineRete (ext : ExtPrims) (parseJson : Str → Except Str JValue)
    (factsJson rulesGrl : Str) : ApiOut :=
  runRuleEngine ext parseJson factsJson rulesGrl

/-- `run_rule_engine_fc` (engine.rs:8-63): the same validation prelude; the
forward-chaining remainder is abstracted as `rest`. -/
def runRuleEngineFc (rest : Str → Str → ApiOut) (factsJson rulesGrl : Str) : ApiOut :=
  match validateFactsInput factsJson with
  | .error e => .failure (createCustomError EMPTY_FACTS e)
  | .ok _ =>
  match validateRulesInput rulesGrl with
  | .error e => .failure (createCustomError EMPTY_RULES e)
  | .ok _ => rest factsJson rulesGrl

/-- `query_backward_chaining` (backward.rs:8-48): the same validation
prelude plus the empty-goal check; the backward-chaining remainder is
abstracted as `rest`. -/
def queryBackwardChaining (rest : Str → Str → Str → ApiOut)
    (factsJson rulesGrl goal : Str) : ApiOut :=
  match validateFactsInput factsJson with
  | .error e => .failure (createCustomError EMPTY_FACTS e)
  | .ok _ =>
  match validateRulesInput rulesGrl with
  | .error e => .failure (createCustomError EMPTY_RULES e)
  | .ok _ =>
  if goal.isEmpty then
    .failure (createCustomError INVALID_JSON (sd "Goal query cannot be empty"))
  else rest factsJson rulesGrl goal

/-- `json_to_facts` over the raw string (facts.rs:84-102): serde parse, then
the object check and flattening. -/
def jsonToFactsText (parseJson : Str → Except Str JValue) (s : Str) : Except Str Facts :=
  match parseJson s with
  | .error e => .error (sd "Invalid JSON syntax: " ++ e)
  | .ok v => jsonToFacts v

/-- `parse_and_validate_rules` (core/rules.rs:4-15) over an abstract
`GRLParser::parse_rules` (`gparse`, rule IR type `R` held abstract): wrap
parser errors and reject an empty rule list. -/
def parseAndValidateRules {R : Type} (gparse : Str → Except Str (List R)) (grl : Str) :
    Except Str (List R) :=
  match gparse grl with
  | .error e => .error (sd "Invalid GRL syntax: " ++ e)
  | .ok rules =>
    if rules.isEmpty then .error (sd "No valid rules found in GRL") else .ok rules

/-- `can_prove_goal` (backward.rs:117-132): no validation at all; parse
facts and rules, returning `false` on either failure, then delegate to
`query_goal_production` (`qgp`, the knowledge-base setup plus
`BackwardEngine::query` of core/backward.rs:124-151, held abstract) with
`unwrap_or_default`, so a query error also yields `false`. -/
def canProveGoal {R : Type} (parseJson : Str → Except Str JValue)
    (gparse : Str → Except Str (List R))
    (qgp : Facts → List R → Str → Except Str Bool)
    (factsJson rulesGrl goal : Str) : Bool :=
  match jsonToFactsText parseJson factsJson with
  | .error _ => false
  | .ok facts =>
    match parseAndValidateRules gparse rulesGrl with
    | .error _ => false
    | .ok rules =>
      match qgp facts rules goal with
      | .ok b => b
      | .error _ => false

/-! ## Debug event store (`src/debug/event_store.rs`) -/

/-- `SessionStatus` (event_store.rs:40-44). -/
inductive SessionStatus where
  | running | completed | error
  deriving DecidableEq

/-- `ExecutionSession` (event_store.rs:12-36); the event payload type `E`
(debug/events.rs `ReteEvent`) is held abstract. -/
structure ExecutionSession (E : Type) where
  sessionId : Str
  startedAt : Int
  completedAt : Option Int
  rulesGrl : Str
  initialFacts : JValue
  events : List E
  currentStep : Nat
  status : SessionStatus
  deriving DecidableEq

/-- The session list guarded by the store's `RwLock`. -/
abbrev EventStore (E : Type) := List (ExecutionSession E)

/-- `ExecutionSession::new` (event_store.rs:48-59); `ts` models
`current_timestamp()`. -/
def newSession (E : Type) (ts : Int) (sid grl : Str) (facts : JValue) :
    ExecutionSession E :=
  ⟨sid, ts, none, grl, facts, [], 0, .running⟩

/-- `EventStore::create_session` (event_store.rs:135-147): build the session,
push it, and return the id — no duplicate check of any kind. -/
def createSession {E : Type} (ts : Int) (store : EventStore E) (sid grl : Str)
    (facts : JValue) : Str × EventStore E :=
  (sid, store ++ [newSession E ts sid grl facts])

/-- `EventStore::add_event` (event_store.rs:150-160): append the event to
the first session with the id, or fail with `Session not found`. -/
def storeAddEvent {E : Type} : EventStore E → Str → E → Except Str (EventStore E)
  | [], sid, _ => .error (sd "Session not found: " ++ sid)
  | s :: rest, sid, e =>
    if s.sessionId = sid then .ok ({ s with events := s.events ++ [e] } :: rest)
    else
      match storeAddEvent rest sid e with
      | .ok rest2 => .ok (s :: rest2)
      | .error msg => .error msg

/-- `EventStore::get_session` (event_store.rs:201-209): clone the first
session with the id, or fail with `Session not found`. -/
def storeGetSession {E : Type} : EventStore E → Str → Except Str (ExecutionSession E)
  | [], sid => .error (sd "Session not found: " ++ sid)
  | s :: rest, sid => if s.sessionId = sid then .ok s else storeGetSession rest sid

/-- The ids present in a store. -/
def storeIds {E : Type} (store : EventStore E) : List Str :=
  store.map (fun s => s.sessionId)

/-! ## Specification-side companions and concrete claim inputs -/

/-- Dotted key of a component path under an optional already-joined key
prefix. -/
def keyOf : Option Str → List Str → Str
  | none, p => joinDot p
  | some s, p => joinDot (s :: p)

/-- The claim's classification rule, stated from the spec's words at a given
position: condition-context iff some occurrence of `when ` lies wholly
before the position and strictly after every occurrence of `then ` wholly
before it. -/
def specCondContext (grl : Str) (pos : Nat) : Prop :=
  ∃ w, matchAt grl (sd "when ") w = true ∧ w + 5 ≤ pos ∧
    ∀ t, matchAt grl (sd "then ") t = true → t + 5 ≤ pos → t < w

/-- Number of condition-context calls strictly before index `i`. -/
def whenCountBefore (calls : List FunctionCall) (i : Nat) : Nat :=
  ((calls.take i).filter (fun c => c.inWhen)).length

/-- The synthesized keys of the condition-context calls, in order. -/
def whenKeys (calls : List FunctionCall) : List Str :=
  calls.filterMap (fun c => if c.inWhen then c.computedField else none)

/-- Recover the counter embedded in a synthesized key: skip past the first
dot if any, expect the `__func_` tag, and parse the digit run. -/
def decodeKey (k : Str) : Option Nat :=
  let t := if noDot k then k else ((k.dropWhile (fun c => c ≠ '.')).drop 1)
  if t.take 7 = sd "__func_" then
    let ds := (t.drop 7).takeWhile isDigitCh
    if ds = [] then none else some (parseDigits ds)
  else none

/-- Facts JSON text of the discount scenario. -/
def factsDText : Str := sd "\x7b\"Order\":\x7b\"total\":150,\"discount\":0\x7d\x7d"

/-- Parsed facts value of the discount scenario. -/
def factsDVal : JValue :=
  .obj (.cons (sd "Order")
    (.obj (.cons (sd "total") (.num 150) (.cons (sd "discount") (.num 0) .nil))) .nil)

/-- Rule source of the discount scenario. -/
def grlD : Str :=
  sd "rule \"D\" \x7b when Order.total > 100 then Order.discount = Order.total * 0.10; \x7d"

/-- Expected output of the discount scenario: discount exactly 15. -/
def expectedD : JValue :=
  .obj (.cons (sd "Order")
    (.obj (.cons (sd "total") (.num 150) (.cons (sd "discount") (.num 15) .nil))) .nil)

/-- A trivial instantiation of the abstract primitives (used where a closed
statement must fix them and they are irrelevant to the outcome). -/
def extTriv : ExtPrims :=
  ⟨fun _ => [], fun _ => none, fun _ _ => .error []⟩

/-- The abstract primitives with the registry fragment attached (square root
instantiated with the identity placeholder where its value is irrelevant). -/
def extReg : ExtPrims :=
  ⟨fun _ => [], fun _ => none, registryFragment (fun q => q)⟩

/-- A facts text one byte over the 1 MB limit. -/
def oversizeInput : Str := List.replicate 1000001 'a'

/-- The keys of an object, in order. -/
def fkeysList : JFields → List Str
  | .nil => []
  | .cons k _ rest => k :: fkeysList rest

/-- No duplicate keys in an object. -/
def fkeysNodup : JFields → Bool
  | .nil => true
  | .cons k _ rest => !(fhas rest k) && fkeysNodup rest

/-- A concrete running debug session with id `"s"` (event payloads
irrelevant, `Unit`). -/
def sessOne : ExecutionSession Unit :=
  ⟨sd "s", 0, none, [], JValue.null, [], 0, .running⟩

mutual
/-- Size measure on JSON values (object spine only), used for inductions. -/
def jvSize : JValue → Nat
  | .obj fs => jfSize fs + 1
  | _ => 1

/-- Size measure on object fields. -/
def jfSize : JFields → Nat
  | .nil => 0
  | .cons _ v rest => jvSize v + jfSize rest + 1
end

/-!
# Theorems

Generic helper lemmas first, then one principal theorem per claim (with
counterexamples and witnesses where called for).
-/

/-- The kernel-reducible strict order agrees with the rational order. -/
theorem qlt_iff (a b : ℚ) : qlt a b = true ↔ a < b := by
  have h : a < b ↔ a.num * b.den < b.num * a.den := by
    conv_lhs => rw [← Rat.num_div_den a, ← Rat.num_div_den b]
    rw [div_lt_div_iff₀ (by positivity) (by positivity)]
    exact_mod_cast Iff.rfl
  simp [qlt, h]

/-- The kernel-reducible non-strict order agrees with the rational order. -/
theorem qle_iff (a b : ℚ) : qle a b = true ↔ a ≤ b := by
  have h : a ≤ b ↔ a.num * b.den ≤ b.num * a.den := by
    conv_lhs => rw [← Rat.num_div_den a, ← Rat.num_div_den b]
    rw [div_le_div_iff₀ (by positivity) (by positivity)]
    exact_mod_cast Iff.rfl
  simp [qle, h]

/-- C6: the claim says `Substring(s, start, len)` is total over every UTF-8
string and never aborts.  On `Substring("é", 0, 1)` the start bound check
passes (0 < 2 bytes) but the byte slice `&text[0..1]` ends inside the
two-byte encoding of `é` (`0xC3 0xA9`), which is a Rust panic, not an `Ok`
or `Err` return. -/
theorem c6_substring_panics_inside_utf8_char :
    substringModel [.sstr [0xC3, 0xA9], .sint 0, .sint 1] = .panicked := by decide

/-- C7: `Sqrt` errors exactly on a negative numeric first argument and
otherwise returns the IEEE-754 square root (`sqrtImpl`) as a JSON Number. -/
theorem c7_sqrt_negative_errors_nonnegative_ok
    (sqrtImpl : ℚ → ℚ) (args : List JValue) (q : ℚ) (rest : List JValue)
    (hargs : args = JValue.num q :: rest) :
    (q < 0 → sqrtModel sqrtImpl args
      = .error (sd "Sqrt: cannot take square root of negative number")) ∧
    (0 ≤ q → sqrtModel sqrtImpl args = .ok (.num (sqrtImpl q))) := by
  subst hargs
  constructor
  · intro hneg
    simp only [sqrtModel, asF64]
    rw [if_pos ((qlt_iff q 0).mpr hneg)]
  · intro hpos
    simp only [sqrtModel, asF64]
    rw [if_neg]
    intro hcon
    exact absurd ((qlt_iff q 0).mp hcon) (not_lt.mpr hpos)

/-- Witness for C7 at `Sqrt(9)` (with the identity standing in for the
square-root primitive). -/
theorem c7_sqrt_witness :
    (0 : ℚ) ≤ 9 ∧ sqrtModel (fun q => q) [JValue.num 9] = .ok (.num 9) :=
  ⟨by norm_num,
   (c7_sqrt_negative_errors_nonnegative_ok (fun q => q) [JValue.num 9] 9 [] rfl).2
     (by norm_num)⟩

/-- C2: on facts `{"Order":{"total":150,"discount":0}}` and the single rule
`rule "D" { when Order.total > 100 then Order.discount = Order.total * 0.10; }`,
the execute entry point (validation, JSON parse, function preprocessing —
here the identity, the rule containing no calls — and the RETE pipeline)
returns `{"Order":{"total":150,"discount":15}}` with discount exactly 15
(`150 × 0.10` is exactly 15 in binary64 as well as in the rational model),
for every instantiation of the abstract primitives. -/
theorem c2_discount_scenario_executes (ext : ExtPrims) :
    validateFactsInput factsDText = .ok () ∧
    validateRulesInput grlD = .ok () ∧
    preprocessGrl ext grlD factsDVal = .ok (grlD, factsDVal) ∧
    executeRulesRete ext factsDVal grlD = .ok expectedD ∧
    runRuleEngine ext (fun s => if s = factsDText then .ok factsDVal else .error [])
      factsDText grlD = .success expectedD :=
  ⟨rfl, rfl, rfl, rfl, rfl⟩

/-- C10: `can_prove_goal` always returns a bare boolean (its return type) and
is `true` exactly when the facts JSON parses into `Facts`, the rule source
parses into a nonempty rule list, and the production backward query returns
`Ok(true)` — so every parse failure or query error yields `false`, and no
emptiness or size validation is performed (the equivalence holds for every
input string, including empty and oversize ones). -/
theorem c10_can_prove_goal_characterization {R : Type}
    (pj : Str → Except Str JValue) (gparse : Str → Except Str (List R))
    (qgp : Facts → List R → Str → Except Str Bool)
    (factsJson rulesGrl goal : Str) :
    canProveGoal pj gparse qgp factsJson rulesGrl goal = true ↔
      ∃ facts rules, jsonToFactsText pj factsJson = .ok facts ∧
        parseAndValidateRules gparse rulesGrl = .ok rules ∧
        qgp facts rules goal = .ok true := by
  unfold canProveGoal
  cases h1 : jsonToFactsText pj factsJson with
  | error e =>
    simp only [h1]
    exact iff_of_false (by simp) (by rintro ⟨f, r, hf, hr, hq⟩; cases hf)
  | ok facts =>
    simp only [h1]
    cases h2 : parseAndValidateRules gparse rulesGrl with
    | error e =>
      simp only [h2]
      exact iff_of_false (by simp) (by rintro ⟨f, r, hf, hr, hq⟩; cases hr)
    | ok rules =>
      simp only [h2]
      cases h3 : qgp facts rules goal with
      | error e =>
        simp only [h3]
        refine iff_of_false (by simp) ?_
        rintro ⟨f, r, hf, hr, hq⟩
        cases hf
        cases hr
        rw [h3] at hq
        cases hq
      | ok b =>
        simp only [h3]
        cases b with
        | false =>
          refine iff_of_false (by simp) ?_
          rintro ⟨f, r, hf, hr, hq⟩
          cases hf
          cases hr
          rw [h3] at hq
          cases hq
        | true => exact iff_of_true rfl ⟨facts, rules, rfl, rfl, h3⟩

/-- Appending sessions does not change lookup of an id already present. -/
theorem storeGetSession_append_of_mem {E : Type} (store extra : EventStore E) (sid : Str)
    (h : sid ∈ storeIds store) :
    storeGetSession (store ++ extra) sid = storeGetSession store sid := by
  induction store with
  | nil => cases h
  | cons s rest ih =>
    simp only [List.cons_append, storeGetSession]
    by_cases hs : s.sessionId = sid
    · rw [if_pos hs, if_pos hs]
    · rw [if_neg hs, if_neg hs]
      apply ih
      rcases List.mem_cons.mp h with h1 | h1
      · exact absurd h1.symm hs
      · exact h1

/-- `add_event` on an unknown id fails with `Session not found`. -/
theorem storeAddEvent_not_found {E : Type} (store : EventStore E) (sid : Str) (e : E)
    (h : sid ∉ storeIds store) :
    storeAddEvent store sid e = .error (sd "Session not found: " ++ sid) := by
  induction store with
  | nil => rfl
  | cons s rest ih =>
    have hs : s.sessionId ≠ sid := fun hc => h (by simp [storeIds, hc])
    have hr : sid ∉ storeIds rest := fun hc => h (by simp [storeIds] at hc ⊢; right; exact hc)
    simp only [storeAddEvent, if_neg hs, ih hr]

/-- `get_session` on an unknown id fails with `Session not found`. -/
theorem storeGetSession_not_found {E : Type} (store : EventStore E) (sid : Str)
    (h : sid ∉ storeIds store) :
    storeGetSession store sid = .error (sd "Session not found: " ++ sid) := by
  induction store with
  | nil => rfl
  | cons s rest ih =>
    have hs : s.sessionId ≠ sid := fun hc => h (by simp [storeIds, hc])
    have hr : sid ∉ storeIds rest := fun hc => h (by simp [storeIds] at hc ⊢; right; exact hc)
    simp only [storeGetSession, if_neg hs, ih hr]

/-- C8 counterexample: creating a session whose id `"s"` already exists does
NOT fail — `create_session` returns the id and the store now holds two
sessions with the same id, refuting the claimed duplicate-create conflict. -/
theorem c8_counterexample_duplicate_create_succeeds :
    createSession 1 [sessOne] (sd "s") [] .null
      = (sd "s", [sessOne, ⟨sd "s", 1, none, [], JValue.null, [], 0, .running⟩]) ∧
    storeIds (createSession 1 [sessOne] (sd "s") [] .null).2 = [sd "s", sd "s"] := by
  exact ⟨rfl, rfl⟩

/-- C8 amended: `create_session` never fails — it appends a fresh session
and returns the id even when the id already exists (the duplicate coexists;
lookups keep returning the first match) — while `add_event` and
`get_session` with an unknown id fail with a `Session not found` error. -/
theorem c8_create_appends_lookups_error_on_unknown {E : Type} (ts : Int)
    (store : EventStore E) (sid grl : Str) (facts : JValue) :
    (createSession ts store sid grl facts).1 = sid ∧
    storeIds (createSession ts store sid grl facts).2 = storeIds store ++ [sid] ∧
    (sid ∈ storeIds store →
      storeGetSession (createSession ts store sid grl facts).2 sid
        = storeGetSession store sid) ∧
    (sid ∉ storeIds store →
      (∀ e : E, storeAddEvent store sid e = .error (sd "Session not found: " ++ sid)) ∧
      storeGetSession store sid = .error (sd "Session not found: " ++ sid)) := by
  refine ⟨rfl, by simp [createSession, storeIds, newSession], ?_, ?_⟩
  · intro h
    exact storeGetSession_append_of_mem store _ sid h
  · intro h
    exact ⟨fun e => storeAddEvent_not_found store sid e h,
           storeGetSession_not_found store sid h⟩

/-- Witness for C8 amended: a duplicate create over the concrete store
`[sessOne]` keeps lookups stable, and the unknown id `"t"` errors. -/
theorem c8_witness :
    sd "s" ∈ storeIds [sessOne] ∧
    storeGetSession (createSession 1 [sessOne] (sd "s") [] .null).2 (sd "s")
      = storeGetSession [sessOne] (sd "s") ∧
    sd "t" ∉ storeIds [sessOne] ∧
    storeAddEvent [sessOne] (sd "t") () = .error (sd "Session not found: t") ∧
    storeGetSession [sessOne] (sd "t") = .error (sd "Session not found: t") := by
  refine ⟨by decide, ?_, by decide, ?_, ?_⟩
  · exact (c8_create_appends_lookups_error_on_unknown 1 [sessOne] (sd "s") [] .null).2.2.1
      (by decide)
  · exact ((c8_create_appends_lookups_error_on_unknown 1 [sessOne] (sd "t") [] .null).2.2.2
      (by decide)).1 ()
  · exact ((c8_create_appends_lookups_error_on_unknown 1 [sessOne] (sd "t") [] .null).2.2.2
      (by decide)).2

/-- An oversize input fails `validate_facts_input` with the size message. -/
theorem validateFactsInput_oversize (s : Str) (h : MAX_INPUT_SIZE < s.length) :
    validateFactsInput s
      = .error (sd "Input too large: " ++ natDigits s.length ++ sd " bytes (max "
          ++ natDigits MAX_INPUT_SIZE ++ sd " bytes)") := by
  have hne : s.isEmpty = false := by
    cases s with
    | nil => simp [MAX_INPUT_SIZE] at h
    | cons a t => rfl
  simp [validateFactsInput, checkNotEmpty, hne, checkSizeLimit, if_pos h]

/-- An oversize input fails `validate_rules_input` with the size message. -/
theorem validateRulesInput_oversize (s : Str) (h : MAX_INPUT_SIZE < s.length) :
    validateRulesInput s
      = .error (sd "Input too large: " ++ natDigits s.length ++ sd " bytes (max "
          ++ natDigits MAX_INPUT_SIZE ++ sd " bytes)") := by
  have hne : s.isEmpty = false := by
    cases s with
    | nil => simp [MAX_INPUT_SIZE] at h
    | cons a t => rfl
  simp [validateRulesInput, checkNotEmpty, hne, checkSizeLimit, if_pos h]

/-- A nonempty input within the limit passes `validate_facts_input`. -/
theorem validateFactsInput_ok (s : Str) (hne : s.isEmpty = false)
    (hlen : s.length ≤ MAX_INPUT_SIZE) :
    validateFactsInput s = .ok () := by
  simp [validateFactsInput, checkNotEmpty, hne, checkSizeLimit, if_neg (not_lt.mpr hlen)]

/-- Every boundary call maps a facts-validation failure to `EMPTY_FACTS`. -/
theorem api_facts_invalid (ext : ExtPrims) (pj : Str → Except Str JValue)
    (rest : Str → Str → ApiOut) (restQ : Str → Str → Str → ApiOut)
    (factsJson rulesGrl goal e : Str)
    (hv : validateFactsInput factsJson = .error e) :
    errCodeOf (runRuleEngine ext pj factsJson rulesGrl) = some EMPTY_FACTS.code ∧
    errCodeOf (runRuleEngineRete ext pj factsJson rulesGrl) = some EMPTY_FACTS.code ∧
    errCodeOf (runRuleEngineFc rest factsJson rulesGrl) = some EMPTY_FACTS.code ∧
    errCodeOf (queryBackwardChaining restQ factsJson rulesGrl goal)
      = some EMPTY_FACTS.code := by
  refine ⟨?_, ?_, ?_, ?_⟩
  · rw [runRuleEngine, hv]
    rfl
  · rw [runRuleEngineRete, runRuleEngine, hv]
    rfl
  · rw [runRuleEngineFc, hv]
    rfl
  · rw [queryBackwardChaining, hv]
    rfl

/-- Every boundary call maps a rules-validation failure to `EMPTY_RULES`. -/
theorem api_rules_invalid (ext : ExtPrims) (pj : Str → Except Str JValue)
    (rest : Str → Str → ApiOut) (restQ : Str → Str → Str → ApiOut)
    (factsJson rulesGrl goal e : Str)
    (hok : validateFactsInput factsJson = .ok ())
    (hr : validateRulesInput rulesGrl = .error e) :
    errCodeOf (runRuleEngine ext pj factsJson rulesGrl) = some EMPTY_RULES.code ∧
    errCodeOf (runRuleEngineRete ext pj factsJson rulesGrl) = some EMPTY_RULES.code ∧
    errCodeOf (runRuleEngineFc rest factsJson rulesGrl) = some EMPTY_RULES.code ∧
    errCodeOf (queryBackwardChaining restQ factsJson rulesGrl goal)
      = some EMPTY_RULES.code := by
  refine ⟨?_, ?_, ?_, ?_⟩
  · rw [runRuleEngine, hok, hr]
    rfl
  · rw [runRuleEngineRete, runRuleEngine, hok, hr]
    rfl
  · rw [runRuleEngineFc, hok, hr]
    rfl
  · rw [queryBackwardChaining, hok, hr]
    rfl

/-- C5 counterexample: a facts input of 1,000,001 bytes is rejected, but the
envelope's `error_code` is `"ERR001"` — the `EMPTY_FACTS` constant — not
`INPUT_TOO_LARGE` (the unused oversize constant is `FACTS_TOO_LARGE` =
`"ERR003"`, and no code named `INPUT_TOO_LARGE` exists). -/
theorem c5_counterexample_oversize_yields_empty_facts_code :
    errCodeOf (runRuleEngine extTriv (fun _ => .error []) oversizeInput grlD)
      = some (sd "ERR001") ∧
    EMPTY_FACTS.code = sd "ERR001" ∧
    FACTS_TOO_LARGE.code = sd "ERR003" ∧
    sd "ERR001" ≠ sd "INPUT_TOO_LARGE" := by
  have h : MAX_INPUT_SIZE < oversizeInput.length := by
    rw [oversizeInput, List.length_replicate]
    norm_num [MAX_INPUT_SIZE]
  exact ⟨(api_facts_invalid extTriv (fun _ => .error []) (fun _ _ => .success .null)
      (fun _ _ _ => .success .null) oversizeInput grlD [] _
      (validateFactsInput_oversize _ h)).1,
    rfl, rfl, by decide⟩

/-- C5 amended: every boundary call rejects an input over 1 MB, but the
error envelope carries `EMPTY_FACTS` (`ERR001`) for oversize facts and
`EMPTY_RULES` (`ERR002`) for oversize rule sources — the dedicated
`*_TOO_LARGE` codes are never used. -/
theorem c5_oversize_rejected_with_empty_codes (ext : ExtPrims)
    (pj : Str → Except Str JValue) (rest : Str → Str → ApiOut)
    (restQ : Str → Str → Str → ApiOut) (factsJson rulesGrl goal : Str) :
    (MAX_INPUT_SIZE < factsJson.length →
      errCodeOf (runRuleEngine ext pj factsJson rulesGrl) = some EMPTY_FACTS.code ∧
      errCodeOf (runRuleEngineRete ext pj factsJson rulesGrl) = some EMPTY_FACTS.code ∧
      errCodeOf (runRuleEngineFc rest factsJson rulesGrl) = some EMPTY_FACTS.code ∧
      errCodeOf (queryBackwardChaining restQ factsJson rulesGrl goal)
        = some EMPTY_FACTS.code) ∧
    (factsJson.isEmpty = false → factsJson.length ≤ MAX_INPUT_SIZE →
      MAX_INPUT_SIZE < rulesGrl.length →
      errCodeOf (runRuleEngine ext pj factsJson rulesGrl) = some EMPTY_RULES.code ∧
      errCodeOf (runRuleEngineRete ext pj factsJson rulesGrl) = some EMPTY_RULES.code ∧
      errCodeOf (runRuleEngineFc rest factsJson rulesGrl) = some EMPTY_RULES.code ∧
      errCodeOf (queryBackwardChaining restQ factsJson rulesGrl goal)
        = some EMPTY_RULES.code) := by
  constructor
  · intro h
    exact api_facts_invalid ext pj rest restQ factsJson rulesGrl goal _
      (validateFactsInput_oversize factsJson h)
  · intro hne hlen h
    exact api_rules_invalid ext pj rest restQ factsJson rulesGrl goal _
      (validateFactsInput_ok factsJson hne hlen)
      (validateRulesInput_oversize rulesGrl h)

/-- Witness for C5 amended at a 1,000,001-byte facts input (and at a small
facts input with a 1,000,001-byte rule source). -/
theorem c5_witness :
    errCodeOf (runRuleEngineFc (fun _ _ => .success .null) oversizeInput grlD)
      = some EMPTY_FACTS.code ∧
    errCodeOf (runRuleEngine extTriv (fun _ => .error []) factsDText oversizeInput)
      = some EMPTY_RULES.code := by
  have hbig : MAX_INPUT_SIZE < oversizeInput.length := by
    rw [oversizeInput, List.length_replicate]
    norm_num [MAX_INPUT_SIZE]
  constructor
  · exact ((c5_oversize_rejected_with_empty_codes extTriv (fun _ => .error [])
      (fun _ _ => .success .null) (fun _ _ _ => .success .null) oversizeInput grlD []).1
        hbig).2.2.1
  · exact ((c5_oversize_rejected_with_empty_codes extTriv (fun _ => .error [])
      (fun _ _ => .success .null) (fun _ _ _ => .success .null) factsDText oversizeInput []).2
        (by decide) (by decide) hbig).1

/-- List-style induction for `JFields` (the mutual recursor has several
motives, which the `induction` tactic does not accept; lemmas that never
descend into values only need this one). -/
theorem jfieldsInduction (P : JFields → Prop) (nil : P .nil)
    (cons : ∀ k v rest, P rest → P (.cons k v rest)) : ∀ m, P m
  | .nil => nil
  | .cons k v rest => cons k v rest (jfieldsInduction P nil cons rest)

/-- Setting a key makes it readable. -/
theorem fget_fset_self (m : JFields) (k : Str) (v : JValue) :
    fget (fset m k v) k = some v := by
  induction m using jfieldsInduction with
  | nil => simp [fset, fget]
  | cons k0 v0 rest ih =>
    by_cases h : k0 = k
    · simp [fset, fget, h]
    · simp [fset, fget, h, ih]

/-- Setting a key leaves other keys unchanged. -/
theorem fget_fset_ne (m : JFields) (k k' : Str) (v : JValue) (h : k ≠ k') :
    fget (fset m k v) k' = fget m k' := by
  induction m using jfieldsInduction with
  | nil => simp [fset, fget, h]
  | cons k0 v0 rest ih =>
    by_cases h0 : k0 = k
    · subst h0
      simp [fset, fget, h]
    · simp [fset, fget, h0, ih]

/-- Key membership after a set. -/
theorem fhas_fset (m : JFields) (k key : Str) (v : JValue)
    (h : fhas (fset m key v) k = true) : k = key ∨ fhas m k = true := by
  induction m using jfieldsInduction with
  | nil =>
    simp [fset, fhas] at h
    exact Or.inl h.symm
  | cons k0 v0 rest ih =>
    by_cases h0 : k0 = key
    · subst h0
      simp [fset, fhas] at h
      rcases h with h | h
      · exact Or.inr (by simp [fhas, h])
      · exact Or.inr (by simp [fhas, h])
    · simp [fset, fhas, h0] at h
      rcases h with h | h
      · exact Or.inr (by simp [fhas, h])
      · rcases ih h with h1 | h1
        · exact Or.inl h1
        · exact Or.inr (by simp [fhas, h1])

/-- `fhas` is membership in the key list. -/
theorem fhas_iff_mem (m : JFields) (k : Str) :
    fhas m k = true ↔ k ∈ fkeysList m := by
  induction m using jfieldsInduction with
  | nil => simp [fhas, fkeysList]
  | cons k0 v0 rest ih =>
    simp [fhas, fkeysList, ih]
    constructor
    · rintro (h | h)
      · exact Or.inl h.symm
      · exact Or.inr h
    · rintro (h | h)
      · exact Or.inl h.symm
      · exact Or.inr h

/-- The handle pairs produced by `json_to_typed_facts` carry exactly the
top-level keys of the input object, in order. -/
theorem jttLoop_types (ext : ExtPrims) (fs : JFields) (wm : WorkMem) :
    ((jttLoop ext fs wm).1).map Prod.fst = fkeysList fs := by
  induction fs using jfieldsInduction generalizing wm with
  | nil => rfl
  | cons k v rest ih =>
    simp only [jttLoop, fkeysList]
    cases v <;> simp [wmInsert, ih]

/-- Extraction ignores handle pairs whose type is not the queried key. -/
theorem extractFold_fget_preserve (wm' : WorkMem) (handles : List (Str × Nat))
    (m0 : JFields) (t : Str) (hnot : t ∉ handles.map Prod.fst) :
    fget (handles.foldl
      (fun result th =>
        match wmGet wm' th.2 with
        | some td => fset result th.1 (typedFactsToJson td.2)
        | none => result) m0) t = fget m0 t := by
  induction handles generalizing m0 with
  | nil => rfl
  | cons th rest ih =>
    simp only [List.map_cons, List.mem_cons, not_or] at hnot
    simp only [List.foldl_cons]
    cases hw : wmGet wm' th.2 with
    | none => exact ih _ hnot.2
    | some td => rw [ih _ hnot.2, fget_fset_ne _ _ _ _ (fun hc => hnot.1 hc.symm)]

/-- Every key of the extracted object comes from the handle list. -/
theorem extractFold_fhas (wm' : WorkMem) (handles : List (Str × Nat))
    (m0 : JFields) (k : Str)
    (h : fhas (handles.foldl
      (fun result th =>
        match wmGet wm' th.2 with
        | some td => fset result th.1 (typedFactsToJson td.2)
        | none => result) m0) k = true) :
    fhas m0 k = true ∨ k ∈ handles.map Prod.fst := by
  induction handles generalizing m0 with
  | nil => exact Or.inl h
  | cons th rest ih =>
    simp only [List.foldl_cons] at h
    simp only [List.map_cons, List.mem_cons]
    cases hw : wmGet wm' th.2 with
    | none =>
      rw [hw] at h
      rcases ih _ h with h1 | h1
      · exact Or.inl h1
      · exact Or.inr (Or.inr h1)
    | some td =>
      rw [hw] at h
      rcases ih _ h with h1 | h1
      · rcases fhas_fset _ _ _ _ h1 with h2 | h2
        · exact Or.inr (Or.inl h2)
        · exact Or.inl h2
      · exact Or.inr (Or.inr h1)

/-- A surviving handle's type maps to its final field map in the extracted
object, provided the handle types are distinct. -/
theorem extractFold_fget_of_mem (wm' : WorkMem) (handles : List (Str × Nat))
    (m0 : JFields) (t : Str) (h : Nat) (td : Str × TypedFacts)
    (hmem : (t, h) ∈ handles) (hnodup : (handles.map Prod.fst).Nodup)
    (hwm : wmGet wm' h = some td) :
    fget (handles.foldl
      (fun result th =>
        match wmGet wm' th.2 with
        | some td => fset result th.1 (typedFactsToJson td.2)
        | none => result) m0) t = some (typedFactsToJson td.2) := by
  induction handles generalizing m0 with
  | nil => cases hmem
  | cons th rest ih =>
    simp only [List.map_cons, List.nodup_cons] at hnodup
    rcases List.mem_cons.mp hmem with heq | hmem2
    · subst heq
      simp only [List.foldl_cons, hwm]
      rw [extractFold_fget_preserve wm' rest _ t hnodup.1]
      exact fget_fset_self _ _ _
    · have ht : t ∈ rest.map Prod.fst :=
        List.mem_map.mpr ⟨(t, h), hmem2, rfl⟩
      simp only [List.foldl_cons]
      cases hw : wmGet wm' th.2 with
      | none => exact ih _ hmem2 hnodup.2
      | some td2 => exact ih _ hmem2 hnodup.2

/-- C9: for any post-firing working memory `wm'` whatever `fire_all` did,
the object extracted over the handles inserted from the input contains at
most the input's top-level keys; each inserted handle still present maps its
fact type to the fact's final field map (keys being distinct in a JSON
object); and fact types first inserted by rules during firing (which are
not among the insertion handles) never appear. -/
theorem c9_extraction_confined_to_inserted_handles (ext : ExtPrims) (fs : JFields)
    (handles : List (Str × Nat)) (wm0 wm' : WorkMem)
    (hrun : jttLoop ext fs ⟨0, []⟩ = (handles, wm0)) :
    handles.map Prod.fst = fkeysList fs ∧
    (∀ k, fhas (extractFactsFromRete wm' handles) k = true → fhas fs k = true) ∧
    (fkeysNodup fs = true →
      ∀ t h td, (t, h) ∈ handles → wmGet wm' h = some td →
        fget (extractFactsFromRete wm' handles) t = some (typedFactsToJson td.2)) ∧
    (∀ t, fhas fs t = false → fget (extractFactsFromRete wm' handles) t = none) := by
  have htypes : handles.map Prod.fst = fkeysList fs := by
    have := jttLoop_types ext fs ⟨0, []⟩
    rw [hrun] at this
    exact this
  refine ⟨htypes, ?_, ?_, ?_⟩
  · intro k hk
    rcases extractFold_fhas wm' handles .nil k hk with h1 | h1
    · cases h1
    · rw [htypes] at h1
      exact (fhas_iff_mem fs k).mpr h1
  · intro hnodup t h td hmem hwm
    have hnd : (handles.map Prod.fst).Nodup := by
      rw [htypes]
      clear htypes hrun hmem hwm
      induction fs using jfieldsInduction with
      | nil => exact List.nodup_nil
      | cons k v rest ih =>
        simp only [fkeysNodup, Bool.and_eq_true, Bool.not_eq_true'] at hnodup
        refine List.nodup_cons.mpr ⟨?_, ih hnodup.2⟩
        intro hc
        rw [(fhas_iff_mem rest k).mpr hc] at hnodup
        exact Bool.noConfusion hnodup.1
    exact extractFold_fget_of_mem wm' handles .nil t h td hmem hnd hwm
  · intro t ht
    have hnot : t ∉ handles.map Prod.fst := by
      rw [htypes]
      intro hc
      rw [(fhas_iff_mem fs t).mpr hc] at ht
      exact Bool.noConfusion ht
    exact extractFold_fget_preserve wm' handles .nil t hnot

/-- Witness for C9: one `Order` fact inserted (handle 0); after firing, the
memory also holds a rule-created `New` fact (handle 1); extraction keeps
`Order` with its final fields and never mentions `New`. -/
theorem c9_witness :
    fget (extractFactsFromRete
        ⟨2, [(0, sd "Order", [(sd "total", FactValue.fvInt 150)]), (1, sd "New", [])]⟩
        [(sd "Order", 0)]) (sd "Order")
      = some (typedFactsToJson [(sd "total", FactValue.fvInt 150)]) ∧
    fget (extractFactsFromRete
        ⟨2, [(0, sd "Order", [(sd "total", FactValue.fvInt 150)]), (1, sd "New", [])]⟩
        [(sd "Order", 0)]) (sd "New") = none := by
  have h := c9_extraction_confined_to_inserted_handles extTriv
    (.cons (sd "Order") (.obj (.cons (sd "total") (.num 150) .nil)) .nil)
    [(sd "Order", 0)]
    ⟨1, [(0, sd "Order", [(sd "total", FactValue.fvInt 150)])]⟩
    ⟨2, [(0, sd "Order", [(sd "total", FactValue.fvInt 150)]), (1, sd "New", [])]⟩
    (by decide)
  exact ⟨h.2.2.1 (by decide) (sd "Order") 0
      (sd "Order", [(sd "total", FactValue.fvInt 150)]) (by decide) (by decide),
    h.2.2.2 (sd "New") (by decide)⟩

/-- `splitOnCh` always yields at least one segment. -/
theorem splitOnCh_ne_nil (c : Char) (s : Str) : splitOnCh c s ≠ [] := by
  induction s with
  | nil => simp [splitOnCh]
  | cons a t ih =>
    simp only [splitOnCh]
    by_cases h : a = c
    · simp [h]
    · simp only [if_neg h]
      cases hs : splitOnCh c t with
      | nil => exact absurd hs ih
      | cons s0 ss => simp

/-- Every segment of `splitOnCh c` is `c`-free. -/
theorem splitOnCh_chFree (c : Char) (s : Str) :
    ∀ p ∈ splitOnCh c s, chFree c p = true := by
  induction s with
  | nil =>
    intro p hp
    simp [splitOnCh] at hp
    simp [hp, chFree]
  | cons a t ih =>
    intro p hp
    simp only [splitOnCh] at hp
    by_cases h : a = c
    · rw [if_pos h] at hp
      rcases List.mem_cons.mp hp with h1 | h1
      · simp [h1, chFree]
      · exact ih p h1
    · rw [if_neg h] at hp
      cases hs : splitOnCh c t with
      | nil => exact absurd hs (splitOnCh_ne_nil c t)
      | cons s0 ss =>
        rw [hs] at hp
        rcases List.mem_cons.mp hp with h1 | h1
        · subst h1
          have hs0 : chFree c s0 = true := ih s0 (by rw [hs]; exact List.mem_cons_self _ _)
          simp [chFree] at hs0 ⊢
          exact ⟨h, hs0⟩
        · exact ih p (by rw [hs]; exact List.mem_cons_of_mem _ h1)

/-- Splitting a `c`-free string returns it whole. -/
theorem splitOnCh_of_chFree (c : Char) (s : Str) (h : chFree c s = true) :
    splitOnCh c s = [s] := by
  induction s with
  | nil => rfl
  | cons a t ih =>
    rw [chFree, List.all_cons, Bool.and_eq_true] at h
    simp only [splitOnCh, if_neg (of_decide_eq_true h.1), ih h.2]

/-- Splitting distributes over one separator after a `c`-free head. -/
theorem splitOnCh_append_sep (c : Char) (p rest : Str) (h : chFree c p = true) :
    splitOnCh c (p ++ c :: rest) = p :: splitOnCh c rest := by
  induction p with
  | nil => simp [splitOnCh]
  | cons a t ih =>
    rw [chFree, List.all_cons, Bool.and_eq_true] at h
    simp only [List.cons_append, splitOnCh, if_neg (of_decide_eq_true h.1), List.append_eq]
    rw [ih h.2]

/-- `splitOnCh` inverts `joinCh` on nonempty lists of `c`-free segments. -/
theorem splitOnCh_joinCh (c : Char) (parts : List Str) (hne : parts ≠ [])
    (hfree : ∀ p ∈ parts, chFree c p = true) :
    splitOnCh c (joinCh c parts) = parts := by
  induction parts with
  | nil => exact absurd rfl hne
  | cons p rest ih =>
    cases rest with
    | nil => exact splitOnCh_of_chFree c p (hfree p (by simp))
    | cons q rest2 =>
      have hp : chFree c p = true := hfree p (by simp)
      rw [show joinCh c (p :: q :: rest2) = p ++ c :: joinCh c (q :: rest2) from rfl,
        splitOnCh_append_sep c p _ hp,
        ih (by simp) (fun x hx => hfree x (List.mem_cons_of_mem _ hx))]

/-- Prepending a joined head with a separator into `joinCh`. -/
theorem joinCh_cons_append (c : Char) (a b : Str) (l : List Str) :
    joinCh c ((a ++ c :: b) :: l) = a ++ c :: joinCh c (b :: l) := by
  cases l with
  | nil => rfl
  | cons x xs => simp [joinCh]

/-- Right identity of object concatenation. -/
theorem fcat_nil_right (m : JFields) : fcat m .nil = m := by
  induction m using jfieldsInduction with
  | nil => rfl
  | cons k v rest ih => simp [fcat, ih]

/-- Associativity of object concatenation. -/
theorem fcat_assoc (a b c : JFields) : fcat (fcat a b) c = fcat a (fcat b c) := by
  induction a using jfieldsInduction with
  | nil => rfl
  | cons k v rest ih => simp [fcat, ih]

/-- Key membership distributes over concatenation. -/
theorem fhas_fcat (a b : JFields) (k : Str) :
    fhas (fcat a b) k = (fhas a k || fhas b k) := by
  induction a using jfieldsInduction with
  | nil => simp [fcat, fhas]
  | cons k0 v rest ih => by_cases h : k0 = k <;> simp [fcat, fhas, h, ih]

/-- An absent key reads as `none`. -/
theorem fget_eq_none_of_not_fhas (m : JFields) (k : Str) (h : fhas m k = false) :
    fget m k = none := by
  induction m using jfieldsInduction with
  | nil => rfl
  | cons k0 v rest ih =>
    simp only [fhas, Bool.or_eq_false_iff] at h
    simp only [fget, if_neg (of_decide_eq_false h.1)]
    exact ih h.2

/-- Setting an absent key appends the binding at the end. -/
theorem fset_eq_append (m : JFields) (k : Str) (v : JValue) (h : fhas m k = false) :
    fset m k v = fcat m (.cons k v .nil) := by
  induction m using jfieldsInduction with
  | nil => rfl
  | cons k0 v0 rest ih =>
    simp only [fhas, Bool.or_eq_false_iff] at h
    simp only [fset, if_neg (of_decide_eq_false h.1), fcat]
    rw [ih h.2]

/-- Rewriting a key to the value it already has is the identity. -/
theorem fset_of_fget_eq (m : JFields) (k : Str) (w : JValue) (h : fget m k = some w) :
    fset m k w = m := by
  induction m using jfieldsInduction with
  | nil => cases h
  | cons k0 v0 rest ih =>
    by_cases h0 : k0 = k
    · rw [fget, if_pos h0] at h
      cases h
      simp [fset, h0]
    · rw [fget, if_neg h0] at h
      simp [fset, h0, ih h]

/-- Two writes to the same key collapse to the last one. -/
theorem fset_fset_same (m : JFields) (k : Str) (a b : JValue) :
    fset (fset m k a) k b = fset m k b := by
  induction m using jfieldsInduction with
  | nil => simp [fset]
  | cons k0 v0 rest ih =>
    by_cases h0 : k0 = k
    · simp [fset, h0]
    · simp [fset, h0, ih]

/-- Reading the appended binding of a previously absent key. -/
theorem fget_fcat_single (m : JFields) (k : Str) (w : JValue) (h : fhas m k = false) :
    fget (fcat m (.cons k w .nil)) k = some w := by
  induction m using jfieldsInduction with
  | nil => simp [fcat, fget]
  | cons k0 v0 rest ih =>
    simp only [fhas, Bool.or_eq_false_iff] at h
    simp only [fcat, fget, if_neg (of_decide_eq_false h.1)]
    exact ih h.2

/-- Writing over the appended binding of a previously absent key. -/
theorem fset_fcat_single (m : JFields) (k : Str) (w v : JValue) (h : fhas m k = false) :
    fset (fcat m (.cons k w .nil)) k v = fcat m (.cons k v .nil) := by
  induction m using jfieldsInduction with
  | nil => simp [fcat, fset]
  | cons k0 v0 rest ih =>
    simp only [fhas, Bool.or_eq_false_iff] at h
    simp only [fcat, fset, if_neg (of_decide_eq_false h.1)]
    rw [ih h.2]

/-- Unflattening distributes over list concatenation (sequencing through the
optional state). -/
theorem unflattenPathsInto_append (A B : List (List Str × JValue)) (m : JFields) :
    unflattenPathsInto (A ++ B) m
      = match unflattenPathsInto A m with
        | some m2 => unflattenPathsInto B m2
        | none => none := by
  induction A generalizing m with
  | nil => rfl
  | cons pv rest ih =>
    obtain ⟨p, v⟩ := pv
    simp only [List.cons_append, unflattenPathsInto]
    cases setPath m p v with
    | none => rfl
    | some m2 => exact ih m2

/-- Inserting paths under a key whose entry is an object updates that entry
in place: the whole run equals a run inside the entry. -/
theorem unflattenPathsInto_under_key (P : List (List Str × JValue)) (k : Str) :
    ∀ (o m : JFields), fget m k = some (.obj o) → (∀ pv ∈ P, pv.1 ≠ []) →
    unflattenPathsInto (P.map (fun pv => (k :: pv.1, pv.2))) m
      = (unflattenPathsInto P o).map (fun o2 => fset m k (.obj o2)) := by
  induction P with
  | nil =>
    intro o m hm _
    show some m = some (fset m k (.obj o))
    rw [fset_of_fget_eq m k _ hm]
  | cons pv P2 ih =>
    intro o m hm hne
    obtain ⟨ps, v⟩ := pv
    have hps : ps ≠ [] := hne (ps, v) (by simp)
    cases ps with
    | nil => exact absurd rfl hps
    | cons p ps2 =>
      simp only [List.map_cons, unflattenPathsInto, setPath, hm]
      cases hsp : setPath o (p :: ps2) v with
      | none => simp [unflattenPathsInto, hsp]
      | some o1 =>
        simp only [hsp, Option.map_some']
        rw [ih o1 (fset m k (.obj o1)) (fget_fset_self m k _)
          (fun pv hpv => hne pv (List.mem_cons_of_mem _ hpv))]
        cases unflattenPathsInto P2 o1 with
        | none => rfl
        | some o2 =>
          simp only [Option.map_some']
          rw [fset_fset_same]

/-- A deep insertion at a fresh key behaves as if an empty object had just
been appended under that key (the `or_insert` step of the source). -/
theorem setPath_fresh_key (m : JFields) (k : Str) (ps : List Str) (v : JValue)
    (h : fhas m k = false) (hps : ps ≠ []) :
    setPath m (k :: ps) v
      = setPath (fcat m (.cons k (.obj .nil) .nil)) (k :: ps) v := by
  cases ps with
  | nil => exact absurd rfl hps
  | cons p ps2 =>
    simp only [setPath, fget_eq_none_of_not_fhas m k h, fget_fcat_single m k _ h]
    cases hsp : setPath .nil (p :: ps2) v with
    | none => rfl
    | some o2 =>
      simp only [hsp, Option.map_some']
      rw [fset_eq_append m k _ h, fset_fcat_single m k _ _ h]

/-- Values have positive size. -/
theorem jvSize_pos (v : JValue) : 1 ≤ jvSize v := by
  cases v <;> simp [jvSize]

/-- Unpacking goodness of a field list. -/
theorem goodFs_cons_iff (k : Str) (v : JValue) (rest : JFields) :
    goodFs (.cons k v rest) = true ↔
      noDot k = true ∧ fhas rest k = false ∧ goodVal v = true ∧ goodFs rest = true := by
  simp [goodFs, Bool.and_eq_true, Bool.not_eq_true']
  tauto

/-- Unpacking goodness of an object value. -/
theorem goodVal_obj_iff (gs : JFields) :
    goodVal (.obj gs) = true ↔ gs ≠ .nil ∧ goodFs gs = true := by
  cases gs with
  | nil => simp [goodVal]
  | cons k v rest => simp [goodVal]

/-- Paths produced by flattening a good object are nonempty and consist of
dot-free components. -/
theorem flattenPaths_good (n : Nat) : ∀ (fs : JFields), jfSize fs ≤ n →
    goodFs fs = true →
    ∀ pv ∈ flattenPaths fs, pv.1 ≠ [] ∧ ∀ s ∈ pv.1, noDot s = true := by
  induction n with
  | zero =>
    intro fs hsz _hg pv hpv
    cases fs with
    | nil => cases hpv
    | cons k v rest => simp [jfSize] at hsz
  | succ n ih =>
    intro fs hsz hg pv hpv
    cases fs with
    | nil => cases hpv
    | cons k v rest =>
      obtain ⟨hk, hkr, hv, hrest⟩ := (goodFs_cons_iff k v rest).mp hg
      have hszv : jfSize (.cons k v rest) = jvSize v + jfSize rest + 1 := rfl
      have hrest_sz : jfSize rest ≤ n := by
        have := jvSize_pos v
        omega
      cases v with
      | obj gs =>
        have hgs_sz : jfSize gs ≤ n := by
          have : jvSize (JValue.obj gs) = jfSize gs + 1 := rfl
          omega
        obtain ⟨_, hgs_good⟩ := (goodVal_obj_iff gs).mp hv
        rcases List.mem_append.mp hpv with hin | hin
        · obtain ⟨q, hq, hqe⟩ := List.mem_map.mp hin
          obtain ⟨hq1, hq2⟩ := ih gs hgs_sz hgs_good q hq
          subst hqe
          refine ⟨by simp, ?_⟩
          intro s hs
          rcases List.mem_cons.mp hs with h1 | h1
          · rw [h1]; exact hk
          · exact hq2 s h1
        · exact ih rest hrest_sz hrest pv hin
      | null =>
        rcases List.mem_append.mp hpv with hin | hin
        · rcases List.mem_singleton.mp hin with rfl
          exact ⟨by simp, by intro s hs; rcases List.mem_singleton.mp hs with rfl; exact hk⟩
        · exact ih rest hrest_sz hrest pv hin
      | bool b =>
        rcases List.mem_append.mp hpv with hin | hin
        · rcases List.mem_singleton.mp hin with rfl
          exact ⟨by simp, by intro s hs; rcases List.mem_singleton.mp hs with rfl; exact hk⟩
        · exact ih rest hrest_sz hrest pv hin
      | num q =>
        rcases List.mem_append.mp hpv with hin | hin
        · rcases List.mem_singleton.mp hin with rfl
          exact ⟨by simp, by intro s hs; rcases List.mem_singleton.mp hs with rfl; exact hk⟩
        · exact ih rest hrest_sz hrest pv hin
      | str s0 =>
        rcases List.mem_append.mp hpv with hin | hin
        · rcases List.mem_singleton.mp hin with rfl
          exact ⟨by simp, by intro s hs; rcases List.mem_singleton.mp hs with rfl; exact hk⟩
        · exact ih rest hrest_sz hrest pv hin
      | arr es =>
        rcases List.mem_append.mp hpv with hin | hin
        · rcases List.mem_singleton.mp hin with rfl
          exact ⟨by simp, by intro s hs; rcases List.mem_singleton.mp hs with rfl; exact hk⟩
        · exact ih rest hrest_sz hrest pv hin

/-- Flattening a nonempty good object yields at least one entry. -/
theorem flattenPaths_ne_nil (n : Nat) : ∀ (fs : JFields), jfSize fs ≤ n →
    fs ≠ .nil → goodFs fs = true → flattenPaths fs ≠ [] := by
  induction n with
  | zero =>
    intro fs hsz hne _hg
    cases fs with
    | nil => exact absurd rfl hne
    | cons k v rest => simp [jfSize] at hsz
  | succ n ih =>
    intro fs hsz hne hg
    cases fs with
    | nil => exact absurd rfl hne
    | cons k v rest =>
      obtain ⟨hk, hkr, hv, hrest⟩ := (goodFs_cons_iff k v rest).mp hg
      cases v with
      | obj gs =>
        obtain ⟨hgs_ne, hgs_good⟩ := (goodVal_obj_iff gs).mp hv
        have hgs_sz : jfSize gs ≤ n := by
          have h1 : jfSize (.cons k (JValue.obj gs) rest)
              = (jfSize gs + 1) + jfSize rest + 1 := rfl
          omega
        have hne2 := ih gs hgs_sz hgs_ne hgs_good
        show (flattenPaths gs).map (fun pv => (k :: pv.1, pv.2)) ++ flattenPaths rest ≠ []
        intro hc
        rw [List.append_eq_nil] at hc
        exact hne2 (List.map_eq_nil_iff.mp hc.1)
      | null => simp [flattenPaths]
      | bool b => simp [flattenPaths]
      | num q => simp [flattenPaths]
      | str s => simp [flattenPaths]
      | arr es => simp [flattenPaths]

/-- MAIN unflatten/flatten inverse: running the split-key insertions of the
flattening of a good object `fs` against an accumulator disjoint from its
keys appends exactly `fs`. -/
theorem unflatten_flattenPaths (n : Nat) : ∀ (fs : JFields) (m : JFields),
    jfSize fs ≤ n → goodFs fs = true →
    (∀ k, fhas fs k = true → fhas m k = false) →
    unflattenPathsInto (flattenPaths fs) m = some (fcat m fs) := by
  induction n with
  | zero =>
    intro fs m hsz _hg _hd
    cases fs with
    | nil => simp [flattenPaths, unflattenPathsInto, fcat_nil_right]
    | cons k v rest => simp [jfSize] at hsz
  | succ n ih =>
    intro fs m hsz hg hd
    cases fs with
    | nil => simp [flattenPaths, unflattenPathsInto, fcat_nil_right]
    | cons k v rest =>
      obtain ⟨hk, hkr, hv, hrest⟩ := (goodFs_cons_iff k v rest).mp hg
      have hmk : fhas m k = false := hd k (by simp [fhas])
      have hrest_sz : jfSize rest ≤ n := by
        have h1 : jfSize (.cons k v rest) = jvSize v + jfSize rest + 1 := rfl
        have h2 := jvSize_pos v
        omega
      have hd2 : ∀ (w : JValue) (k' : Str), fhas rest k' = true →
          fhas (fcat m (.cons k w .nil)) k' = false := by
        intro w k' hk'
        rw [fhas_fcat]
        have h1 : fhas m k' = false := hd k' (by simp [fhas, hk'])
        have h2 : (k = k') = False := by
          by_contra hc
          simp at hc
          rw [hc] at hkr
          rw [hkr] at hk'
          cases hk'
        simp [fhas, h1, h2]
      have tail_step : ∀ (w : JValue), fhas m k = false →
          unflattenPathsInto (flattenPaths rest) (fcat m (.cons k w .nil))
            = some (fcat m (.cons k w rest)) := by
        intro w _
        rw [ih rest (fcat m (.cons k w .nil)) hrest_sz hrest (hd2 w), fcat_assoc]
        rfl
      have leaf_case : ∀ (w : JValue),
          unflattenPathsInto (([k], w) :: flattenPaths rest) m
            = some (fcat m (.cons k w rest)) := by
        intro w
        simp only [unflattenPathsInto, setPath]
        rw [fset_eq_append m k _ hmk]
        exact tail_step w hmk
      cases v with
      | obj gs =>
        obtain ⟨hgs_ne, hgs_good⟩ := (goodVal_obj_iff gs).mp hv
        have hgs_sz : jfSize gs ≤ n := by
          have h1 : jfSize (.cons k (JValue.obj gs) rest)
              = (jfSize gs + 1) + jfSize rest + 1 := rfl
          omega
        have hpaths := flattenPaths_good n gs hgs_sz hgs_good
        show unflattenPathsInto
          ((flattenPaths gs).map (fun pv => (k :: pv.1, pv.2)) ++ flattenPaths rest) m
          = _
        obtain ⟨pv0, ptl, hfp⟩ : ∃ pv0 ptl, flattenPaths gs = pv0 :: ptl := by
          cases hfp2 : flattenPaths gs with
          | nil => exact absurd hfp2 (flattenPaths_ne_nil n gs hgs_sz hgs_ne hgs_good)
          | cons a b => exact ⟨a, b, rfl⟩
        obtain ⟨hp0ne, _⟩ := hpaths pv0 (by rw [hfp]; exact List.mem_cons_self _ _)
        have hA : unflattenPathsInto ((flattenPaths gs).map (fun pv => (k :: pv.1, pv.2))) m
            = some (fcat m (.cons k (.obj gs) .nil)) := by
          have step1 : unflattenPathsInto
              ((flattenPaths gs).map (fun pv => (k :: pv.1, pv.2))) m
              = unflattenPathsInto ((flattenPaths gs).map (fun pv => (k :: pv.1, pv.2)))
                  (fcat m (.cons k (.obj .nil) .nil)) := by
            rw [hfp]
            simp only [List.map_cons, unflattenPathsInto]
            rw [setPath_fresh_key m k pv0.1 pv0.2 hmk hp0ne]
          rw [step1,
            unflattenPathsInto_under_key (flattenPaths gs) k .nil
              (fcat m (.cons k (.obj .nil) .nil)) (fget_fcat_single m k _ hmk)
              (fun pv hpv => (hpaths pv hpv).1),
            ih gs .nil hgs_sz hgs_good (fun k' _ => rfl)]
          show some (fset (fcat m (.cons k (.obj .nil) .nil)) k (.obj (fcat .nil gs)))
            = _
          rw [show fcat .nil gs = gs from rfl, fset_fcat_single m k _ _ hmk]
        rw [unflattenPathsInto_append, hA]
        exact tail_step (.obj gs) hmk
      | null => exact leaf_case .null
      | bool b => exact leaf_case (.bool b)
      | num q => exact leaf_case (.num q)
      | str s => exact leaf_case (.str s)
      | arr es => exact leaf_case (.arr es)

/-- `keyOf` on a singleton path is the prefixed key. -/
theorem keyOf_single (pref : Option Str) (k : Str) : keyOf pref [k] = newKey pref k := by
  cases pref with
  | none => rfl
  | some p => rfl

/-- Pushing a component into the prefix commutes with `keyOf`. -/
theorem keyOf_cons (pref : Option Str) (k : Str) (ps : List Str) :
    keyOf (some (newKey pref k)) ps = keyOf pref (k :: ps) := by
  cases pref with
  | none => rfl
  | some p =>
    show joinDot ((p ++ '.' :: k) :: ps) = joinDot (p :: k :: ps)
    rw [joinDot, joinCh_cons_append]
    rfl

/-- The flattened entries are the path entries with keys joined by dots. -/
theorem flattenFields_eq (n : Nat) : ∀ (fs : JFields) (pref : Option Str),
    jfSize fs ≤ n →
    flattenFields pref fs = (flattenPaths fs).map (fun pv => (keyOf pref pv.1, pv.2)) := by
  induction n with
  | zero =>
    intro fs pref hsz
    cases fs with
    | nil => rfl
    | cons k v rest => simp [jfSize] at hsz
  | succ n ih =>
    intro fs pref hsz
    cases fs with
    | nil => rfl
    | cons k v rest =>
      have hrest_sz : jfSize rest ≤ n := by
        have h1 : jfSize (.cons k v rest) = jvSize v + jfSize rest + 1 := rfl
        have h2 := jvSize_pos v
        omega
      cases v with
      | obj gs =>
        have hgs_sz : jfSize gs ≤ n := by
          have h1 : jfSize (.cons k (JValue.obj gs) rest)
              = (jfSize gs + 1) + jfSize rest + 1 := rfl
          omega
        show flattenFields (some (newKey pref k)) gs ++ flattenFields pref rest
          = ((flattenPaths gs).map (fun pv => (k :: pv.1, pv.2))
              ++ flattenPaths rest).map (fun pv => (keyOf pref pv.1, pv.2))
        rw [List.map_append, List.map_map, ih gs _ hgs_sz, ih rest _ hrest_sz]
        congr 1
        apply List.map_congr_left
        intro pv _
        simp only [Function.comp_apply]
        rw [keyOf_cons]
      | null =>
        show (newKey pref k, JValue.null) :: flattenFields pref rest = _
        simp only [flattenPaths, List.singleton_append, List.map_cons]
        rw [ih rest _ hrest_sz, keyOf_single]
      | bool b =>
        show (newKey pref k, JValue.bool b) :: flattenFields pref rest = _
        simp only [flattenPaths, List.singleton_append, List.map_cons]
        rw [ih rest _ hrest_sz, keyOf_single]
      | num q =>
        show (newKey pref k, JValue.num q) :: flattenFields pref rest = _
        simp only [flattenPaths, List.singleton_append, List.map_cons]
        rw [ih rest _ hrest_sz, keyOf_single]
      | str s =>
        show (newKey pref k, JValue.str s) :: flattenFields pref rest = _
        simp only [flattenPaths, List.singleton_append, List.map_cons]
        rw [ih rest _ hrest_sz, keyOf_single]
      | arr es =>
        show (newKey pref k, JValue.arr es) :: flattenFields pref rest = _
        simp only [flattenPaths, List.singleton_append, List.map_cons]
        rw [ih rest _ hrest_sz, keyOf_single]

/-- `flatten_and_add_to_facts` adds exactly the flattened entries, in
order. -/
theorem flattenAddFields_eq (n : Nat) : ∀ (fs : JFields) (facts : Facts) (pref : Option Str),
    jfSize fs ≤ n →
    flattenAddFields facts pref fs
      = (flattenFields pref fs).foldl (fun f kv => addValue f kv.1 kv.2) facts := by
  induction n with
  | zero =>
    intro fs facts pref hsz
    cases fs with
    | nil => rfl
    | cons k v rest => simp [jfSize] at hsz
  | succ n ih =>
    intro fs facts pref hsz
    cases fs with
    | nil => rfl
    | cons k v rest =>
      have hrest_sz : jfSize rest ≤ n := by
        have h1 : jfSize (.cons k v rest) = jvSize v + jfSize rest + 1 := rfl
        have h2 := jvSize_pos v
        omega
      cases v with
      | obj gs =>
        have hgs_sz : jfSize gs ≤ n := by
          have h1 : jfSize (.cons k (JValue.obj gs) rest)
              = (jfSize gs + 1) + jfSize rest + 1 := rfl
          omega
        show flattenAddFields (flattenAddFields facts (some (newKey pref k)) gs) pref rest
          = (flattenFields (some (newKey pref k)) gs
              ++ flattenFields pref rest).foldl (fun f kv => addValue f kv.1 kv.2) facts
        rw [List.foldl_append, ih gs _ _ hgs_sz, ih rest _ _ hrest_sz]
      | null =>
        show flattenAddFields (addValue facts (newKey pref k) JValue.null) pref rest = _
        rw [ih rest _ _ hrest_sz]
        rfl
      | bool b =>
        show flattenAddFields (addValue facts (newKey pref k) (JValue.bool b)) pref rest = _
        rw [ih rest _ _ hrest_sz]
        rfl
      | num q =>
        show flattenAddFields (addValue facts (newKey pref k) (JValue.num q)) pref rest = _
        rw [ih rest _ _ hrest_sz]
        rfl
      | str s =>
        show flattenAddFields (addValue facts (newKey pref k) (JValue.str s)) pref rest = _
        rw [ih rest _ _ hrest_sz]
        rfl
      | arr es =>
        show flattenAddFields (addValue facts (newKey pref k) (JValue.arr es)) pref rest = _
        rw [ih rest _ _ hrest_sz]
        rfl

/-- Every flattened path starts with a key of the object. -/
theorem flattenPaths_head (n : Nat) : ∀ (fs : JFields), jfSize fs ≤ n →
    ∀ pv ∈ flattenPaths fs, ∃ k2 t, pv.1 = k2 :: t ∧ fhas fs k2 = true := by
  induction n with
  | zero =>
    intro fs hsz pv hpv
    cases fs with
    | nil => cases hpv
    | cons k v rest => simp [jfSize] at hsz
  | succ n ih =>
    intro fs hsz pv hpv
    cases fs with
    | nil => cases hpv
    | cons k v rest =>
      have hrest_sz : jfSize rest ≤ n := by
        have h1 : jfSize (.cons k v rest) = jvSize v + jfSize rest + 1 := rfl
        have h2 := jvSize_pos v
        omega
      have from_rest : pv ∈ flattenPaths rest →
          ∃ k2 t, pv.1 = k2 :: t ∧ fhas (JFields.cons k v rest) k2 = true := by
        intro hin
        obtain ⟨k2, t, he, hh⟩ := ih rest hrest_sz pv hin
        exact ⟨k2, t, he, by simp [fhas, hh]⟩
      cases v with
      | obj gs =>
        rcases List.mem_append.mp hpv with hin | hin
        · obtain ⟨q, _, hqe⟩ := List.mem_map.mp hin
          exact ⟨k, q.1, by rw [← hqe], by simp [fhas]⟩
        · exact from_rest hin
      | null =>
        rcases List.mem_append.mp hpv with hin | hin
        · rcases List.mem_singleton.mp hin with rfl
          exact ⟨k, [], rfl, by simp [fhas]⟩
        · exact from_rest hin
      | bool b =>
        rcases List.mem_append.mp hpv with hin | hin
        · rcases List.mem_singleton.mp hin with rfl
          exact ⟨k, [], rfl, by simp [fhas]⟩
        · exact from_rest hin
      | num q =>
        rcases List.mem_append.mp hpv with hin | hin
        · rcases List.mem_singleton.mp hin with rfl
          exact ⟨k, [], rfl, by simp [fhas]⟩
        · exact from_rest hin
      | str s =>
        rcases List.mem_append.mp hpv with hin | hin
        · rcases List.mem_singleton.mp hin with rfl
          exact ⟨k, [], rfl, by simp [fhas]⟩
        · exact from_rest hin
      | arr es =>
        rcases List.mem_append.mp hpv with hin | hin
        · rcases List.mem_singleton.mp hin with rfl
          exact ⟨k, [], rfl, by simp [fhas]⟩
        · exact from_rest hin

/-- The flattened paths of a good object are pairwise distinct. -/
theorem flattenPaths_fst_nodup (n : Nat) : ∀ (fs : JFields), jfSize fs ≤ n →
    goodFs fs = true → ((flattenPaths fs).map Prod.fst).Nodup := by
  induction n with
  | zero =>
    intro fs hsz _hg
    cases fs with
    | nil => exact List.nodup_nil
    | cons k v rest => simp [jfSize] at hsz
  | succ n ih =>
    intro fs hsz hg
    cases fs with
    | nil => exact List.nodup_nil
    | cons k v rest =>
      obtain ⟨hk, hkr, hv, hrest⟩ := (goodFs_cons_iff k v rest).mp hg
      have hrest_sz : jfSize rest ≤ n := by
        have h1 : jfSize (.cons k v rest) = jvSize v + jfSize rest + 1 := rfl
        have h2 := jvSize_pos v
        omega
      have hrest_nodup := ih rest hrest_sz hrest
      have not_in_rest : ∀ (t : List Str), (k :: t) ∉ (flattenPaths rest).map Prod.fst := by
        intro t hin
        obtain ⟨pv, hpv, he⟩ := List.mem_map.mp hin
        obtain ⟨k2, t2, he2, hh⟩ := flattenPaths_head (jfSize rest) rest le_rfl pv hpv
        rw [he2] at he
        have hkk : k2 = k := (List.cons.injEq _ _ _ _).mp he |>.1
        rw [hkk] at hh
        rw [hh] at hkr
        cases hkr
      have leaf_nodup : ∀ (w : JValue),
          ((([k], w) :: flattenPaths rest).map Prod.fst).Nodup := by
        intro w
        simp only [List.map_cons]
        exact List.nodup_cons.mpr ⟨not_in_rest [], hrest_nodup⟩
      cases v with
      | obj gs =>
        have hgs_sz : jfSize gs ≤ n := by
          have h1 : jfSize (.cons k (JValue.obj gs) rest)
              = (jfSize gs + 1) + jfSize rest + 1 := rfl
          omega
        obtain ⟨_, hgs_good⟩ := (goodVal_obj_iff gs).mp hv
        show ((((flattenPaths gs).map (fun pv => (k :: pv.1, pv.2)))
            ++ flattenPaths rest).map Prod.fst).Nodup
        rw [List.map_append, List.map_map]
        have hA : ((flattenPaths gs).map (Prod.fst ∘ fun pv => (k :: pv.1, pv.2))).Nodup := by
          have : (Prod.fst ∘ fun pv : List Str × JValue => (k :: pv.1, pv.2))
              = (fun t => k :: t) ∘ Prod.fst := rfl
          rw [this, ← List.map_map]
          refine List.Nodup.map ?_ (ih gs hgs_sz hgs_good)
          intro x y hxy
          exact ((List.cons.injEq _ _ _ _).mp hxy).2
        refine List.Nodup.append hA hrest_nodup ?_
        intro x hx
        obtain ⟨pv, _, he⟩ := List.mem_map.mp hx
        intro hin
        rw [show (Prod.fst ∘ fun pv : List Str × JValue => (k :: pv.1, pv.2)) pv
          = k :: pv.1 from rfl] at he
        rw [← he] at hin
        exact not_in_rest pv.1 hin
      | null => exact leaf_nodup JValue.null
      | bool b => exact leaf_nodup (JValue.bool b)
      | num q => exact leaf_nodup (JValue.num q)
      | str s => exact leaf_nodup (JValue.str s)
      | arr es => exact leaf_nodup (JValue.arr es)

/-- `add_value` of a fresh key appends the binding. -/
theorem addValue_fresh (facts : Facts) (k : Str) (v : JValue)
    (h : k ∉ facts.map Prod.fst) : addValue facts k v = facts ++ [(k, v)] := by
  induction facts with
  | nil => rfl
  | cons kv rest ih =>
    obtain ⟨kk, vv⟩ := kv
    simp only [List.map_cons, List.mem_cons, not_or] at h
    have hne : kk ≠ k := fun hc => h.1 hc.symm
    simp only [addValue, if_neg hne, List.cons_append]
    rw [ih h.2]

/-- Folding `add_value` over entries with distinct fresh keys appends them
all in order. -/
theorem foldl_addValue_append (entries : List (Str × JValue)) : ∀ (acc : Facts),
    (∀ kv ∈ entries, kv.1 ∉ acc.map Prod.fst) → (entries.map Prod.fst).Nodup →
    entries.foldl (fun f kv => addValue f kv.1 kv.2) acc = acc ++ entries := by
  induction entries with
  | nil => intro acc _ _; simp
  | cons kv tl ih =>
    intro acc hfresh hnodup
    simp only [List.map_cons, List.nodup_cons] at hnodup
    simp only [List.foldl_cons]
    rw [addValue_fresh acc kv.1 kv.2 (hfresh kv (List.mem_cons_self _ _))]
    rw [ih (acc ++ [(kv.1, kv.2)]) ?_ hnodup.2]
    · simp
    · intro kv2 hkv2
      simp only [List.map_append, List.mem_append, not_or]
      refine ⟨hfresh kv2 (List.mem_cons_of_mem _ hkv2), ?_⟩
      simp only [List.map_cons, List.map_nil, List.mem_singleton]
      intro hc
      exact hnodup.1 (hc ▸ List.mem_map.mpr ⟨kv2, hkv2, rfl⟩)

/-- `facts_to_json`'s loop over dotted keys equals the path-level loop over
the split keys. -/
theorem unflattenInto_eq_paths (entries : List (Str × JValue)) : ∀ (m : JFields),
    unflattenInto entries m
      = unflattenPathsInto (entries.map (fun kv => (splitOnDot kv.1, kv.2))) m := by
  induction entries with
  | nil => intro m; rfl
  | cons kv tl ih =>
    intro m
    obtain ⟨k, v⟩ := kv
    simp only [List.map_cons, unflattenInto, unflattenPathsInto]
    cases setPath m (splitOnDot k) v with
    | none => rfl
    | some m2 => exact ih m2

/-- The dotted keys produced by flattening a good object are pairwise
distinct. -/
theorem flattenFields_keys_nodup (fs : JFields) (hg : goodFs fs = true) :
    ((flattenFields none fs).map Prod.fst).Nodup := by
  rw [flattenFields_eq (jfSize fs) fs none le_rfl, List.map_map]
  rw [show (Prod.fst ∘ fun pv : List Str × JValue => (keyOf none pv.1, pv.2))
    = joinDot ∘ Prod.fst from rfl, ← List.map_map]
  refine List.Nodup.map_on ?_ (flattenPaths_fst_nodup (jfSize fs) fs le_rfl hg)
  intro x hx y hy hxy
  obtain ⟨pvx, hpvx, hex⟩ := List.mem_map.mp hx
  obtain ⟨pvy, hpvy, hey⟩ := List.mem_map.mp hy
  obtain ⟨hxne, hxfree⟩ := flattenPaths_good (jfSize fs) fs le_rfl hg pvx hpvx
  obtain ⟨hyne, hyfree⟩ := flattenPaths_good (jfSize fs) fs le_rfl hg pvy hpvy
  have hx2 : splitOnDot (joinDot x) = x := by
    rw [← hex]
    exact splitOnCh_joinCh '.' pvx.1 hxne hxfree
  have hy2 : splitOnDot (joinDot y) = y := by
    rw [← hey]
    exact splitOnCh_joinCh '.' pvy.1 hyne hyfree
  rw [← hx2, ← hy2, hxy]

/-- Splitting the flattened keys back recovers the flattened paths. -/
theorem entries_map_split (fs : JFields) (hg : goodFs fs = true) :
    (flattenFields none fs).map (fun kv => (splitOnDot kv.1, kv.2)) = flattenPaths fs := by
  rw [flattenFields_eq (jfSize fs) fs none le_rfl, List.map_map]
  have hcongr : ∀ pv ∈ flattenPaths fs,
      ((fun kv : Str × JValue => (splitOnDot kv.1, kv.2))
        ∘ fun pv : List Str × JValue => (keyOf none pv.1, pv.2)) pv = id pv := by
    intro pv hpv
    obtain ⟨hne, hfree⟩ := flattenPaths_good (jfSize fs) fs le_rfl hg pv hpv
    show (splitOnDot (joinDot pv.1), pv.2) = pv
    rw [show splitOnDot (joinDot pv.1) = pv.1 from splitOnCh_joinCh '.' pv.1 hne hfree]
  rw [List.map_congr_left hcongr, List.map_id]

/-- C1 amended: `facts_to_json(json_to_facts(x)) = x` for every JSON object
`x` whose leaves are scalars or arrays (arrays not flattened) and whose
keys, at every nesting level, are dot-free and duplicate-free, with no
empty nested object — key order preserved (the facts store and JSON maps
being modelled insertion-ordered, per the spec). -/
theorem c1_roundtrip_on_dotfree_objects (fs : JFields) (hg : goodFs fs = true) :
    roundTrip fs = some (JValue.obj fs) := by
  have h1 : flattenAdd [] none (.obj fs) = flattenFields none fs := by
    show flattenAddFields [] none fs = _
    rw [flattenAddFields_eq (jfSize fs) fs [] none le_rfl]
    rw [foldl_addValue_append _ [] (by simp) (flattenFields_keys_nodup fs hg)]
    simp
  show factsToJson (flattenAdd [] none (.obj fs)) = _
  rw [h1]
  unfold factsToJson
  rw [unflattenInto_eq_paths, entries_map_split fs hg,
    unflatten_flattenPaths (jfSize fs) fs .nil le_rfl hg (fun k _ => rfl)]
  rfl

/-- Witness for C1 amended on `{"Order":{"total":150,"discount":0}}`. -/
theorem c1_witness :
    goodFs (.cons (sd "Order")
      (JValue.obj (.cons (sd "total") (.num 150) (.cons (sd "discount") (.num 0) .nil)))
      .nil) = true ∧
    roundTrip (.cons (sd "Order")
      (JValue.obj (.cons (sd "total") (.num 150) (.cons (sd "discount") (.num 0) .nil)))
      .nil)
      = some (JValue.obj (.cons (sd "Order")
          (JValue.obj (.cons (sd "total") (.num 150) (.cons (sd "discount") (.num 0) .nil)))
          .nil)) :=
  ⟨by decide, c1_roundtrip_on_dotfree_objects _ (by decide)⟩

/-- C1 counterexample: the round trip is NOT the identity on all objects
with scalar leaves — a key containing a dot is re-nested:
`{"a.b": 1}` comes back as `{"a": {"b": 1}}`. -/
theorem c1_counterexample_dotted_key :
    roundTrip (.cons (sd "a.b") (JValue.num 1) .nil)
      = some (JValue.obj (.cons (sd "a")
          (JValue.obj (.cons (sd "b") (JValue.num 1) .nil)) .nil)) ∧
    roundTrip (.cons (sd "a.b") (JValue.num 1) .nil)
      ≠ some (JValue.obj (.cons (sd "a.b") (JValue.num 1) .nil)) := by
  exact ⟨by decide, by decide⟩

/-- The computed field of a condition-context call produced by `mkCalls`
carries the counter equal to the start counter plus the number of
condition-context calls before it. -/
theorem mkCalls_when_computedField (grl : Str) :
    ∀ ms ctr pre c rest, mkCalls grl ms ctr = pre ++ c :: rest →
    c.inWhen = true →
    c.computedField = some (mkComputedField c.rawArgs
      (ctr + (pre.filter (fun c2 => c2.inWhen)).length) c.name) := by
  intro ms
  induction ms with
  | nil =>
    intro ctr pre c rest h hw
    rw [mkCalls] at h
    exact absurd h.symm (List.append_ne_nil_of_right_ne_nil pre (List.cons_ne_nil c rest))
  | cons m ms ih =>
    intro ctr pre c rest h hw
    rw [mkCalls] at h
    by_cases hcls : isInWhenClause grl (matchText m) = true
    · rw [if_pos hcls] at h
      cases pre with
      | nil =>
        rw [List.nil_append] at h
        injection h with h1 h2
        subst h1
        simp
      | cons p pre2 =>
        rw [List.cons_append] at h
        injection h with h1 h2
        have := ih (ctr + 1) pre2 c rest h2 hw
        rw [this, ← h1]
        simp only [List.filter_cons]
        norm_num [Nat.add_assoc, Nat.add_comm 1]
    · rw [if_neg hcls] at h
      cases pre with
      | nil =>
        rw [List.nil_append] at h
        injection h with h1 h2
        subst h1
        exact Bool.noConfusion hw
      | cons p pre2 =>
        rw [List.cons_append] at h
        injection h with h1 h2
        have := ih ctr pre2 c rest h2 hw
        rw [this, ← h1]
        simp [List.filter_cons]

/-- Injection keeps the facts an object. -/
theorem injectWhen_obj (c : FunctionCall) (v : JValue) (fs : JFields) :
    ∃ hs, injectWhen c v (JValue.obj fs) = JValue.obj hs := by
  unfold injectWhen
  by_cases hw : c.inWhen = true
  · rw [if_pos hw]
    cases c.computedField with
    | none => exact ⟨fs, rfl⟩
    | some k => exact ⟨fset fs k v, rfl⟩
  · rw [if_neg hw]
    exact ⟨fs, rfl⟩

/-- Injection under a key other than `key` (or by a non-condition call)
leaves the binding of `key` unchanged. -/
theorem injectWhen_fget (c : FunctionCall) (v : JValue) (fs : JFields) (key : Str)
    (hk : c.inWhen = true → c.computedField ≠ some key) :
    ∃ hs, injectWhen c v (JValue.obj fs) = JValue.obj hs ∧ fget hs key = fget fs key := by
  unfold injectWhen
  by_cases hw : c.inWhen = true
  · rw [if_pos hw]
    cases hcf : c.computedField with
    | none => exact ⟨fs, rfl, rfl⟩
    | some k =>
      refine ⟨fset fs k v, rfl, ?_⟩
      exact fget_fset_ne fs k key v (fun he : k = key => (hk hw) (he ▸ hcf))
  · rw [if_neg hw]
    exact ⟨fs, rfl, rfl⟩

/-- Inversion of one step of the evaluation loop. -/
theorem evalLoop_cons_inv (ext : ExtPrims) (a : FunctionCall) (tl : List FunctionCall)
    (facts : JValue) (calls2 : List FunctionCall) (v2 : JValue)
    (h : evalLoop ext (a :: tl) facts = .ok (calls2, v2)) :
    ∃ v cs, evaluateFunctionCall ext a facts = .ok v ∧
      evalLoop ext tl (injectWhen a v facts) = .ok (cs, v2) ∧
      calls2 = { a with resultValue := some v } :: cs := by
  cases hev : evaluateFunctionCall ext a facts with
  | error e =>
    have h2 : evalLoop ext (a :: tl) facts = .error e := by rw [evalLoop, hev]
    rw [h2] at h
    exact Except.noConfusion h
  | ok v =>
    cases hloop : evalLoop ext tl (injectWhen a v facts) with
    | error e =>
      have h2 : evalLoop ext (a :: tl) facts = .error e := by
        rw [evalLoop, hev]
        show (match evalLoop ext tl (injectWhen a v facts) with
          | Except.ok (cs, f2) => Except.ok ({ a with resultValue := some v } :: cs, f2)
          | Except.error e => Except.error e) = Except.error e
        rw [hloop]
      rw [h2] at h
      exact Except.noConfusion h
    | ok p =>
      obtain ⟨cs, f2⟩ := p
      have h2 : evalLoop ext (a :: tl) facts
          = .ok ({ a with resultValue := some v } :: cs, f2) := by
        rw [evalLoop, hev]
        show (match evalLoop ext tl (injectWhen a v facts) with
          | Except.ok (cs, f2) => Except.ok ({ a with resultValue := some v } :: cs, f2)
          | Except.error e => Except.error e)
          = Except.ok ({ a with resultValue := some v } :: cs, f2)
        rw [hloop]
      rw [h2] at h
      injection h with h1
      injection h1 with ha hb
      exact ⟨v, cs, rfl, hb ▸ hloop, ha.symm⟩

/-- The evaluation loop keeps object facts an object. -/
theorem evalLoop_obj (ext : ExtPrims) :
    ∀ calls fs calls2 v2,
    evalLoop ext calls (JValue.obj fs) = .ok (calls2, v2) →
    ∃ gs, v2 = JValue.obj gs := by
  intro calls
  induction calls with
  | nil =>
    intro fs calls2 v2 h
    rw [evalLoop] at h
    injection h with h1
    exact ⟨fs, (congrArg Prod.snd h1).symm⟩
  | cons a tl ih =>
    intro fs calls2 v2 h
    obtain ⟨v, cs, hev, hloop, hcalls⟩ := evalLoop_cons_inv ext a tl _ calls2 v2 h
    obtain ⟨hs, hhs⟩ := injectWhen_obj a v fs
    rw [hhs] at hloop
    exact ih hs cs v2 hloop

/-- If no condition-context call of the list carries `key`, the evaluation
loop leaves the binding of `key` unchanged. -/
theorem evalLoop_fget_preserve (ext : ExtPrims) (key : Str) :
    ∀ calls fs calls2 v2,
    evalLoop ext calls (JValue.obj fs) = .ok (calls2, v2) →
    (∀ c3 ∈ calls, c3.inWhen = true → c3.computedField ≠ some key) →
    ∃ gs, v2 = JValue.obj gs ∧ fget gs key = fget fs key := by
  intro calls
  induction calls with
  | nil =>
    intro fs calls2 v2 h _
    rw [evalLoop] at h
    injection h with h1
    exact ⟨fs, (congrArg Prod.snd h1).symm, rfl⟩
  | cons a tl ih =>
    intro fs calls2 v2 h hfr
    obtain ⟨v, cs, hev, hloop, hcalls⟩ := evalLoop_cons_inv ext a tl _ calls2 v2 h
    obtain ⟨hs, hhs, hpres⟩ := injectWhen_fget a v fs key
      (fun hw => hfr a (List.mem_cons_self a tl) hw)
    rw [hhs] at hloop
    obtain ⟨gs, hgs, hkey⟩ := ih hs cs v2 hloop
      (fun c3 hc3 => hfr c3 (List.mem_cons_of_mem a hc3))
    exact ⟨gs, hgs, hkey.trans hpres⟩

/-- Splitting lemma for the evaluation loop over object facts: the call at a
given position is evaluated to some value, recorded, and — for a
condition-context call whose key no later condition-context call reuses —
its result is bound under its computed field in the final facts. -/
theorem evalLoop_split_result (ext : ExtPrims) :
    ∀ calls fs pre c rest calls2 v2,
    evalLoop ext calls (JValue.obj fs) = .ok (calls2, v2) →
    calls = pre ++ c :: rest →
    ∃ pre2 rest2 gs v,
      v2 = JValue.obj gs ∧
      calls2 = pre2 ++ { c with resultValue := some v } :: rest2 ∧
      (∀ key, c.inWhen = true → c.computedField = some key →
        (∀ c3 ∈ rest, c3.inWhen = true → c3.computedField ≠ some key) →
        fget gs key = some v) := by
  intro calls
  induction calls with
  | nil =>
    intro fs pre c rest calls2 v2 h hsplit
    exact absurd hsplit.symm (List.append_ne_nil_of_right_ne_nil pre (List.cons_ne_nil c rest))
  | cons a tl ih =>
    intro fs pre c rest calls2 v2 h hsplit
    obtain ⟨v, cs, hev, hloop, hcalls⟩ := evalLoop_cons_inv ext a tl _ calls2 v2 h
    cases pre with
    | nil =>
      rw [List.nil_append] at hsplit
      injection hsplit with h1 h2
      subst h1
      subst h2
      obtain ⟨hs, hhs⟩ := injectWhen_obj a v fs
      rw [hhs] at hloop
      obtain ⟨gs, hgs⟩ := evalLoop_obj ext tl hs cs v2 hloop
      refine ⟨[], cs, gs, v, hgs, by rw [hcalls, List.nil_append], ?_⟩
      intro key hw hcf hfr
      have hinj : injectWhen a v (JValue.obj fs) = JValue.obj (fset fs key v) := by
        unfold injectWhen
        rw [if_pos hw, hcf]
      rw [hinj] at hhs
      injection hhs with hhs2
      rw [← hhs2] at hloop
      obtain ⟨gs2, hgs2, hkey⟩ := evalLoop_fget_preserve ext key tl (fset fs key v) cs v2 hloop hfr
      have : gs = gs2 := by
        rw [hgs] at hgs2
        injection hgs2
      rw [this, hkey]
      exact fget_fset_self fs key v
    | cons p pre1 =>
      rw [List.cons_append] at hsplit
      injection hsplit with h1 h2
      obtain ⟨hs, hhs⟩ := injectWhen_obj a v fs
      rw [hhs] at hloop
      obtain ⟨pre2, rest2, gs, v3, hv2, hc2, hpers⟩ := ih hs pre1 c rest cs v2 hloop h2
      exact ⟨{ a with resultValue := some v } :: pre2, rest2, gs, v3, hv2,
        by rw [hcalls, hc2, List.cons_append], hpers⟩

/-- C3 (amended): for a condition-context call of the parsed rule source —
`pre` the matches before it, no later condition-context call reusing its
key — preprocessing over OBJECT facts evaluates the call to a value `v`,
records `v` on the call, injects `v` into the facts under the synthesized
key built by `mkComputedField` — `<Context>.__func_<i>_<lowercased name>`,
`i` counting the condition-context calls before it, the context prefix
present exactly when the first trimmed argument is an unquoted dotted
reference — and produces the transformed source `transformGrl`, whose step
for this call replaces every occurrence of the call text by that key.  The
amendment: the injection happens only when the facts value is a JSON
object; on any other facts value it is silently skipped while evaluation
and rewriting still take place (see the counterexample). -/
theorem c3_condition_calls_evaluated_injected_rewritten
    (ext : ExtPrims) (grl grl2 : Str) (fs : JFields) (facts2 : JValue)
    (pre rest : List FunctionCall) (c : FunctionCall)
    (hrun : preprocessGrl ext grl (JValue.obj fs) = .ok (grl2, facts2))
    (hsplit : parseFunctionCalls grl = pre ++ c :: rest)
    (hwhen : c.inWhen = true)
    (hfresh : ∀ c3 ∈ rest, c3.inWhen = true →
      c3.computedField ≠ some (mkComputedField c.rawArgs
        ((pre.filter (fun c2 => c2.inWhen)).length) c.name)) :
    c.computedField = some (mkComputedField c.rawArgs
      ((pre.filter (fun c2 => c2.inWhen)).length) c.name) ∧
    ∃ calls2 pre2 rest2 gs v,
      evalLoop ext (parseFunctionCalls grl) (JValue.obj fs) = .ok (calls2, JValue.obj gs) ∧
      facts2 = JValue.obj gs ∧
      grl2 = transformGrl ext grl calls2 ∧
      calls2 = pre2 ++ { c with resultValue := some v } :: rest2 ∧
      fget gs (mkComputedField c.rawArgs ((pre.filter (fun c2 => c2.inWhen)).length) c.name)
        = some v := by
  have hkey : c.computedField = some (mkComputedField c.rawArgs
      ((pre.filter (fun c2 => c2.inWhen)).length) c.name) := by
    have h0 := mkCalls_when_computedField grl (scanMatches grl) 0 pre c rest hsplit hwhen
    rwa [Nat.zero_add] at h0
  refine ⟨hkey, ?_⟩
  have hne : (parseFunctionCalls grl).isEmpty = false := by
    rw [hsplit]; cases pre <;> rfl
  cases hE : evalLoop ext (parseFunctionCalls grl) (JValue.obj fs) with
  | error e =>
    have h2 : preprocessGrl ext grl (JValue.obj fs) = .error e := by
      show (if (parseFunctionCalls grl).isEmpty = true then Except.ok (grl, JValue.obj fs)
        else match evalLoop ext (parseFunctionCalls grl) (JValue.obj fs) with
          | .ok (c2s, g2) => .ok (transformGrl ext grl c2s, g2)
          | .error e => .error e) = .error e
      rw [hne, hE]
      rfl
    rw [h2] at hrun
    exact Except.noConfusion hrun
  | ok p =>
    obtain ⟨calls2, f2⟩ := p
    have h2 : preprocessGrl ext grl (JValue.obj fs)
        = .ok (transformGrl ext grl calls2, f2) := by
      show (if (parseFunctionCalls grl).isEmpty = true then Except.ok (grl, JValue.obj fs)
        else match evalLoop ext (parseFunctionCalls grl) (JValue.obj fs) with
          | .ok (c2s, g2) => .ok (transformGrl ext grl c2s, g2)
          | .error e => .error e) = .ok (transformGrl ext grl calls2, f2)
      rw [hne, hE]
      rfl
    rw [h2] at hrun
    injection hrun with h1
    have hgrl2 : grl2 = transformGrl ext grl calls2 := (congrArg Prod.fst h1).symm
    have hfacts2 : facts2 = f2 := (congrArg Prod.snd h1).symm
    obtain ⟨pre2, rest2, gs, v, hv2, hcalls2, hpers⟩ :=
      evalLoop_split_result ext (parseFunctionCalls grl) fs pre c rest calls2 f2 hE hsplit
    refine ⟨calls2, pre2, rest2, gs, v, ?_, ?_, hgrl2, hcalls2, ?_⟩
    · rw [hv2]
    · rw [hfacts2, hv2]
    · exact hpers _ hwhen hkey hfresh

/-- C3 counterexample: with non-object facts (here an empty array) the
condition-context call `Abs(1)` is evaluated and the source is rewritten to
the synthetic key, yet nothing is injected into the facts — the output
facts are unchanged, and the synthetic key is dangling. -/
theorem c3_counterexample_no_injection_on_nonobject_facts :
    preprocessGrl extReg (sd "when Abs(1)") (JValue.arr .nil)
      = .ok (sd "when __func_0_abs", JValue.arr .nil) ∧
    (parseFunctionCalls (sd "when Abs(1)")).map (fun c => c.inWhen) = [true] :=
  ⟨by decide, by decide⟩

/-- Witness for C3 on `when Abs(1)` over the empty object: the call is
evaluated to `1`, injected under `__func_0_abs`, and the source rewritten. -/
theorem c3_witness :
    preprocessGrl extReg (sd "when Abs(1)") (JValue.obj .nil)
      = .ok (sd "when __func_0_abs",
          JValue.obj (.cons (sd "__func_0_abs") (JValue.num (mkRat 1 1)) .nil)) ∧
    ((⟨sd "Abs(1)", sd "Abs", sd "1", none, true,
        some (sd "__func_0_abs")⟩ : FunctionCall).computedField
      = some (mkComputedField (sd "1")
          ((([] : List FunctionCall).filter (fun c2 => c2.inWhen)).length) (sd "Abs")) ∧
    ∃ calls2 pre2 rest2 gs v,
      evalLoop extReg (parseFunctionCalls (sd "when Abs(1)")) (JValue.obj .nil)
        = .ok (calls2, JValue.obj gs) ∧
      JValue.obj (.cons (sd "__func_0_abs") (JValue.num (mkRat 1 1)) .nil) = JValue.obj gs ∧
      sd "when __func_0_abs" = transformGrl extReg (sd "when Abs(1)") calls2 ∧
      calls2 = pre2 ++ { (⟨sd "Abs(1)", sd "Abs", sd "1", none, true,
          some (sd "__func_0_abs")⟩ : FunctionCall) with resultValue := some v } :: rest2 ∧
      fget gs (mkComputedField (sd "1")
          ((([] : List FunctionCall).filter (fun c2 => c2.inWhen)).length) (sd "Abs"))
        = some v) :=
  ⟨by decide,
    c3_condition_calls_evaluated_injected_rewritten extReg (sd "when Abs(1)")
      (sd "when __func_0_abs") .nil
      (JValue.obj (.cons (sd "__func_0_abs") (JValue.num (mkRat 1 1)) .nil))
      [] [] ⟨sd "Abs(1)", sd "Abs", sd "1", none, true, some (sd "__func_0_abs")⟩
      (by decide) (by decide) rfl (by simp)⟩

/-- `find?` over a reversed range returns a satisfying index that is maximal
among all satisfying indices below the bound. -/
theorem find?_revRange_some (p : Nat → Bool) :
    ∀ n i, ((List.range n).reverse.find? p = some i) →
    p i = true ∧ i < n ∧ ∀ j < n, p j = true → j ≤ i := by
  intro n
  induction n with
  | zero => intro i h; simp [List.range_zero] at h
  | succ n ih =>
    intro i h
    rw [List.range_succ, List.reverse_append, List.reverse_singleton, List.singleton_append] at h
    by_cases hp : p n = true
    · rw [List.find?_cons_of_pos _ hp] at h
      injection h with h1
      subst h1
      exact ⟨hp, Nat.lt_succ_self n, fun j hj _ => Nat.lt_succ_iff.mp hj⟩
    · rw [List.find?_cons_of_neg _ hp] at h
      obtain ⟨hpi, hin, hmax⟩ := ih i h
      refine ⟨hpi, Nat.lt_succ_of_lt hin, fun j hj hpj => ?_⟩
      rcases Nat.lt_succ_iff_lt_or_eq.mp hj with hlt | heq
      · exact hmax j hlt hpj
      · exact absurd (heq ▸ hpj) hp

/-- `find?` over a reversed range fails only when no index below the bound
satisfies the predicate. -/
theorem find?_revRange_none (p : Nat → Bool) (n : Nat)
    (h : (List.range n).reverse.find? p = none) : ∀ j < n, p j = false := by
  rw [List.find?_eq_none] at h
  intro j hj
  have := h j (List.mem_reverse.mpr (List.mem_range.mpr hj))
  simpa using this

/-- A match of a nonempty pattern lies wholly inside the haystack. -/
theorem matchAt_bound (hay pat : Str) (i : Nat) (hpat : pat ≠ [])
    (h : matchAt hay pat i = true) : i + pat.length ≤ hay.length := by
  have h' : ((hay.drop i).take pat.length).length = pat.length := by
    rw [of_decide_eq_true h]
  rw [List.length_take, List.length_drop] at h'
  have hlen : 0 < pat.length := List.length_pos.mpr hpat
  omega

/-- Matching inside a prefix is matching in the whole string wholly before
the cut. -/
theorem matchAt_take (grl pat : Str) (pos i : Nat) (hpat : pat ≠ []) :
    matchAt (grl.take pos) pat i = true ↔ (matchAt grl pat i = true ∧ i + pat.length ≤ pos) := by
  have hlen : 0 < pat.length := List.length_pos.mpr hpat
  unfold matchAt
  constructor
  · intro h
    have h' : ((grl.take pos).drop i).take pat.length = pat := of_decide_eq_true h
    rw [List.drop_take, List.take_take] at h'
    have hL := congrArg List.length h'
    rw [List.length_take, List.length_drop] at hL
    have hge : pat.length ≤ pos - i := by omega
    refine ⟨decide_eq_true ?_, by omega⟩
    rw [min_eq_left hge] at h'
    exact h'
  · rintro ⟨h, hle⟩
    have h' : (grl.drop i).take pat.length = pat := of_decide_eq_true h
    apply decide_eq_true
    rw [List.drop_take, List.take_take, min_eq_left (by omega : pat.length ≤ pos - i)]
    exact h'

/-- When `rfind` fails, no position matches. -/
theorem rfindSub_none_matchAt (hay pat : Str) (hpat : pat ≠ [])
    (h : rfindSub hay pat = none) : ∀ j, matchAt hay pat j = false := by
  intro j
  by_cases hj : j < hay.length + 1
  · exact find?_revRange_none _ _ h j hj
  · cases hmm : matchAt hay pat j with
    | false => rfl
    | true =>
      have hb := matchAt_bound hay pat j hpat hmm
      have hlen : 0 < pat.length := List.length_pos.mpr hpat
      omega

/-- `rfind` returns a matching position that every matching position is at
or before. -/
theorem rfindSub_some_matchAt (hay pat : Str) (i : Nat) (hpat : pat ≠ [])
    (h : rfindSub hay pat = some i) :
    matchAt hay pat i = true ∧ ∀ j, matchAt hay pat j = true → j ≤ i := by
  obtain ⟨hpi, hin, hmax⟩ := find?_revRange_some _ _ _ h
  refine ⟨hpi, fun j hj => ?_⟩
  have hb := matchAt_bound hay pat j hpat hj
  have hlen : 0 < pat.length := List.length_pos.mpr hpat
  exact hmax j (by omega) hj

/-- At the FIRST occurrence of the call text, the code classification agrees
with the nearest-preceding-keyword rule of the spec. -/
theorem isInWhenClause_spec_at_first (grl text : Str) (pos : Nat)
    (hfind : findSub grl text = some pos) :
    (isInWhenClause grl text = true ↔ specCondContext grl pos) := by
  have hw5 : (sd "when ") ≠ [] := by decide
  have ht5 : (sd "then ") ≠ [] := by decide
  have hred : isInWhenClause grl text =
      (match rfindSub (grl.take pos) (sd "when "), rfindSub (grl.take pos) (sd "then ") with
        | some w, some t => decide (t < w)
        | some _, none => true
        | none, some _ => false
        | none, none => false) := by
    unfold isInWhenClause
    rw [hfind]
  rw [hred]
  cases hw : rfindSub (grl.take pos) (sd "when ") with
  | none =>
    cases ht : rfindSub (grl.take pos) (sd "then ") with
    | none =>
      show false = true ↔ specCondContext grl pos
      constructor
      · intro hfalse; exact absurd hfalse (by decide)
      · rintro ⟨w, hmw, hwle, -⟩
        have hbef : matchAt (grl.take pos) (sd "when ") w = true :=
          (matchAt_take grl _ pos w hw5).mpr ⟨hmw, hwle⟩
        have hf := rfindSub_none_matchAt _ _ hw5 hw w
        rw [hf] at hbef
        exact absurd hbef (by decide)
    | some t =>
      show false = true ↔ specCondContext grl pos
      constructor
      · intro hfalse; exact absurd hfalse (by decide)
      · rintro ⟨w, hmw, hwle, -⟩
        have hbef : matchAt (grl.take pos) (sd "when ") w = true :=
          (matchAt_take grl _ pos w hw5).mpr ⟨hmw, hwle⟩
        have hf := rfindSub_none_matchAt _ _ hw5 hw w
        rw [hf] at hbef
        exact absurd hbef (by decide)
  | some w =>
    obtain ⟨hmwb, hwmax⟩ := rfindSub_some_matchAt _ _ w hw5 hw
    obtain ⟨hmw, hwle⟩ := (matchAt_take grl _ pos w hw5).mp hmwb
    cases ht : rfindSub (grl.take pos) (sd "then ") with
    | none =>
      show true = true ↔ specCondContext grl pos
      constructor
      · intro _
        refine ⟨w, hmw, hwle, fun t hmt htle => ?_⟩
        have hbef : matchAt (grl.take pos) (sd "then ") t = true :=
          (matchAt_take grl _ pos t ht5).mpr ⟨hmt, htle⟩
        have hf := rfindSub_none_matchAt _ _ ht5 ht t
        rw [hf] at hbef
        exact absurd hbef (by decide)
      · intro _; rfl
    | some t =>
      obtain ⟨hmtb, htmax⟩ := rfindSub_some_matchAt _ _ t ht5 ht
      obtain ⟨hmt, htle⟩ := (matchAt_take grl _ pos t ht5).mp hmtb
      show decide (t < w) = true ↔ specCondContext grl pos
      constructor
      · intro hlt
        have htw : t < w := of_decide_eq_true hlt
        refine ⟨w, hmw, hwle, fun t2 hmt2 ht2le => ?_⟩
        have hbef : matchAt (grl.take pos) (sd "then ") t2 = true :=
          (matchAt_take grl _ pos t2 ht5).mpr ⟨hmt2, ht2le⟩
        have := htmax t2 hbef
        omega
      · rintro ⟨w2, hmw2, hw2le, hmax2⟩
        have hw2b : matchAt (grl.take pos) (sd "when ") w2 = true :=
          (matchAt_take grl _ pos w2 hw5).mpr ⟨hmw2, hw2le⟩
        have hle2 : w2 ≤ w := hwmax w2 hw2b
        have hlt2 : t < w2 := hmax2 t hmt htle
        exact decide_eq_true (by omega)

/-- C4 (amended): the preprocessor classifies a call by the FIRST occurrence
of its call TEXT in the source, not by the call site itself: where the text
is found, condition-context holds exactly when the nearest preceding
`when ` is closer than the nearest preceding `then ` (action-context when
only `then ` or neither precedes, and when the text does not occur); call
sites whose text already occurred earlier inherit the first occurrence's
classification (see the counterexample).  Every action-context call is
rewritten by replacing its text with `value_to_grl_literal` of its result,
which is always `true`, `false`, `nil`, the number rendering, or a quoted
string. -/
theorem c4_classification_at_first_occurrence_and_action_literals :
    (∀ grl text pos, findSub grl text = some pos →
      (isInWhenClause grl text = true ↔ specCondContext grl pos)) ∧
    (∀ grl text, findSub grl text = none → isInWhenClause grl text = false) ∧
    (∀ ext grl c calls, c.inWhen = false →
      transformGrl ext grl (c :: calls) = transformGrl ext
        (match c.resultValue with
          | some v => replaceAll grl c.originalText (valueToGrlLiteral ext v)
          | none => grl) calls) ∧
    (∀ ext v, valueToGrlLiteral ext v = sd "true" ∨ valueToGrlLiteral ext v = sd "false" ∨
      valueToGrlLiteral ext v = sd "nil" ∨
      (∃ q, v = JValue.num q ∧ valueToGrlLiteral ext v = ext.numRender q) ∨
      (∃ s, v = JValue.str s ∧
        valueToGrlLiteral ext v = '"' :: replaceAll s ['"'] ['\\', '"'] ++ ['"'])) := by
  refine ⟨isInWhenClause_spec_at_first, ?_, ?_, ?_⟩
  · intro grl text hfind
    unfold isInWhenClause
    rw [hfind]
  · intro ext grl c calls hc
    show List.foldl _ _ (c :: calls) = _
    rw [List.foldl_cons]
    have : (if c.inWhen = true then
        match c.computedField with
        | some f => replaceAll grl c.originalText f
        | none => grl
      else
        match c.resultValue with
        | some v => replaceAll grl c.originalText (valueToGrlLiteral ext v)
        | none => grl)
        = (match c.resultValue with
          | some v => replaceAll grl c.originalText (valueToGrlLiteral ext v)
          | none => grl) := by
      rw [if_neg]
      rw [hc]
      exact Bool.false_ne_true
    exact congrArg (fun s => List.foldl _ s calls) this
  · intro ext v
    cases v with
    | null => exact Or.inr (Or.inr (Or.inl rfl))
    | bool b => cases b with
      | true => exact Or.inl rfl
      | false => exact Or.inr (Or.inl rfl)
    | num q => exact Or.inr (Or.inr (Or.inr (Or.inl ⟨q, rfl, rfl⟩)))
    | str s => exact Or.inr (Or.inr (Or.inr (Or.inr ⟨s, rfl, rfl⟩)))
    | arr l => exact Or.inr (Or.inr (Or.inl rfl))
    | obj fs => exact Or.inr (Or.inr (Or.inl rfl))

/-- C4 counterexample: in `then Abs(1) when Abs(1)` there are call sites at
positions 5 and 17; the site at 17 follows `when ` (condition-context by
the spec's nearest-keyword rule) yet both calls are classified
action-context, because classification looks up the first occurrence of the
text `Abs(1)`, which sits after `then `. -/
theorem c4_counterexample_second_site_inherits_first_occurrence :
    (scanMatches (sd "then Abs(1) when Abs(1)")).map (fun m => m.pos) = [5, 17] ∧
    (parseFunctionCalls (sd "then Abs(1) when Abs(1)")).map (fun c => c.inWhen)
      = [false, false] ∧
    specCondContext (sd "then Abs(1) when Abs(1)") 17 := by
  refine ⟨by decide, by decide, ⟨12, by decide, by decide, ?_⟩⟩
  intro t hmt htle
  have hb := matchAt_bound (sd "then Abs(1) when Abs(1)") (sd "then ") t (by decide) hmt
  rw [show (sd "then ").length = 5 from by decide,
    show (sd "then Abs(1) when Abs(1)").length = 23 from by decide] at hb
  have hdec : ∀ t2 < 19,
      matchAt (sd "then Abs(1) when Abs(1)") (sd "then ") t2 = true → t2 < 12 := by decide
  exact hdec t (by omega) hmt

/-- Witness for C4 at the first occurrence of `Abs(1)` in
`then Abs(1) when Abs(1)`. -/
theorem c4_witness :
    findSub (sd "then Abs(1) when Abs(1)") (sd "Abs(1)") = some 5 ∧
    (isInWhenClause (sd "then Abs(1) when Abs(1)") (sd "Abs(1)") = true ↔
      specCondContext (sd "then Abs(1) when Abs(1)") 5) :=
  ⟨by decide,
    c4_classification_at_first_occurrence_and_action_literals.1
      (sd "then Abs(1) when Abs(1)") (sd "Abs(1)") 5 (by decide)⟩
